import Mathlib

/-!
# recursive-heuristics: the article generator and the front-matter writer

A shallow embedding of `main.go`: `createArticles`, `stringifyTags`,
`cleanWorkingDir` and `writeArticles`.

Modelling decisions.

* Go `string` is modelled by `String`: a sequence of Unicode scalar values.
  Every string the program handles is valid UTF-8 (the tag names come out of
  `json.Unmarshal`, the rest are literals and formatted integers).
* Go `int` is the two's-complement integer of a 64-bit platform: values are
  `Int`, and every `+` and unary `-` of the source is followed by `wrapInt`.
* A Go `map[string]int` is ranged over in an unspecified order, chosen anew for
  every `range` statement.  `createArticles` ranges twice, so it takes the two
  visiting orders as two lists of entries; they are permutations of one another
  and their keys are distinct.
* A run-time panic is a value of `Panic`, carried by `Except`.
* The wall clock and the Unicode tables of the Go runtime are read through
  `Runtime`.
* A call of `writeArticles` is a `Run`: how it ends, the directory it leaves
  and the calls it made into the file system.  Which of these calls report an
  error is given by `Faults`.  `log.Fatal` ends the process without running
  deferred calls; a panic runs them first.
-/

namespace Main

/-! ## Machine integers -/

/-- The least value of a Go `int` on a 64-bit platform. -/
def minInt : Int := -(2 ^ 63)

/-- The greatest value of a Go `int` on a 64-bit platform. -/
def maxInt : Int := 2 ^ 63 - 1

/-- Two's-complement wrap-around of an integer result into the range of `int`. -/
def wrapInt (x : Int) : Int := (x + 2 ^ 63) % 2 ^ 64 - 2 ^ 63

/-- The values a Go `int` can hold. -/
def InInt (x : Int) : Prop := minInt ≤ x ∧ x ≤ maxInt

instance (x : Int) : Decidable (InInt x) := by unfold InInt; infer_instance

/-- The run-time panics of the program. -/
inductive Panic where
  /-- A slice expression `a[0:hi]` with `hi` out of range. -/
  | sliceBounds
  /-- An index expression `a[i]` with `i` out of range. -/
  | indexRange
  deriving DecidableEq, Repr

/-! ## The runtime outside the repository -/

/-- What the program reads from the Go runtime and cannot compute itself. -/
structure Runtime where
  /-- The rendering `time.Now().AddDate(0, 0, d).Format(time.RFC3339)` obtained
  by the `k`-th call of `time.Now` (counting from 0) with day offset `d`. -/
  stamp : Nat → Int → String
  /-- The table-driven part of `strconv.IsPrint`, for runes above `0xFF`. -/
  printWide : Char → Bool

/-! ## Package fmt and strconv, as far as the program uses them -/

/-- The double quote character. -/
def dquote : Char := Char.ofNat 34

/-- The single quote character. -/
def squote : Char := Char.ofNat 39

/-- The backslash character. -/
def bslash : Char := Char.ofNat 92

/-- `strconv.IsPrint`: the Latin-1 fast path is the code of the library, the
table lookup for larger runes is `Runtime.printWide`. -/
def IsPrint (rt : Runtime) (r : Char) : Bool :=
  if r.toNat ≤ 0xFF then
    if 0x20 ≤ r.toNat ∧ r.toNat ≤ 0x7E then true
    else if 0xA1 ≤ r.toNat then r.toNat != 0xAD
    else false
  else rt.printWide r

/-- The digit `"0123456789abcdef"[n]`. -/
def lowerhex (n : Nat) : Char := Nat.digitChar (n % 16)

/-- The `k` lowest hexadecimal digits of `r`, most significant first
(`for s := 4*(k-1); s >= 0; s -= 4 { lowerhex[r>>s & 0xF] }`). -/
def hexDigits (r : Nat) (k : Nat) : List Char :=
  (List.range k).reverse.map (fun j => lowerhex ((r >>> (4 * j)) % 16))

/-- `strconv.appendEscapedRune` with `graphicOnly = false`, for a valid rune. -/
def escapedRune (rt : Runtime) (r : Char) (quote : Char) (ASCIIonly : Bool) : List Char :=
  if r = quote ∨ r = bslash then [bslash, r]
  else if ASCIIonly = true ∧ r.toNat < 0x80 ∧ IsPrint rt r = true then [r]
  else if ASCIIonly = false ∧ IsPrint rt r = true then [r]
  else if r = Char.ofNat 7 then [bslash, 'a']
  else if r = Char.ofNat 8 then [bslash, 'b']
  else if r = Char.ofNat 12 then [bslash, 'f']
  else if r = Char.ofNat 10 then [bslash, 'n']
  else if r = Char.ofNat 13 then [bslash, 'r']
  else if r = Char.ofNat 9 then [bslash, 't']
  else if r = Char.ofNat 11 then [bslash, 'v']
  else if r.toNat < 0x20 ∨ r.toNat = 0x7F then
    [bslash, 'x', lowerhex (r.toNat >>> 4), lowerhex (r.toNat &&& 0xF)]
  else if r.toNat < 0x10000 then bslash :: 'u' :: hexDigits r.toNat 4
  else bslash :: 'U' :: hexDigits r.toNat 8

/-- `strconv.appendQuotedWith` with the double quote: `strconv.Quote` when
`ASCIIonly` is false, `strconv.QuoteToASCII` when it is true. -/
def quoteWith (rt : Runtime) (ASCIIonly : Bool) (s : List Char) : List Char :=
  dquote :: (s.flatMap (fun r => escapedRune rt r dquote ASCIIonly) ++ [dquote])

/-- `strconv.Quote`: the verb `%q` on a string. -/
def Quote (rt : Runtime) (s : String) : String := ⟨quoteWith rt false s.data⟩

/-- `strconv.QuoteToASCII`: the verb `%+q` on a string. -/
def QuoteToASCII (rt : Runtime) (s : String) : String := ⟨quoteWith rt true s.data⟩

/-- `strconv.appendQuotedRuneWith` after the conversion `fmtQc` makes of an
integer operand: a single-quoted character literal. -/
def quoteRuneWith (rt : Runtime) (ASCIIonly : Bool) (c : Int) : List Char :=
  let r : Char :=
    if h : 0 ≤ c ∧ c.toNat.isValidChar then Char.ofNatAux c.toNat h.2 else Char.ofNat 0xFFFD
  squote :: (escapedRune rt r squote ASCIIonly ++ [squote])

/-- An operand of `fmt.Sprintf`. -/
inductive Arg where
  | str (s : String)
  | int (i : Int)
  | strs (ss : List String)

/-- The verb `%v`. -/
def fmtV : Arg → List Char
  | .str s => s.data
  | .int i => i.repr.data
  | .strs ss => '[' :: ((ss.map String.data).intersperse [' ']).flatten ++ [']']

/-- The verbs `%q` (`plus = false`) and `%+q` (`plus = true`). -/
def fmtQ (rt : Runtime) ( plus : Bool) : Arg → List Char
  | .str s => quoteWith rt plus s.data
  | .int i => quoteRuneWith rt plus i
  | .strs ss => '[' :: ((ss.map (fun s => quoteWith rt plus s.data)).intersperse [' ']).flatten ++ [']']

/-- The interpretation of a format by `fmt.Sprintf`.  The model covers the
formats of this program: literal text without a percent sign, and the verbs
`%v`, `%q` and `%+q` with one operand each.  Outside of them (another verb, a
verb without operand, operands left over) it copies the text and is not meant
to agree with the library. -/
def sprintfChars (rt : Runtime) : List Char → List Arg → List Char
  | [], _ => []
  | '%' :: 'v' :: rest, a :: as => fmtV a ++ sprintfChars rt rest as
  | '%' :: 'q' :: rest, a :: as => fmtQ rt false a ++ sprintfChars rt rest as
  | '%' :: '+' :: 'q' :: rest, a :: as => fmtQ rt true a ++ sprintfChars rt rest as
  | c :: rest, as => c :: sprintfChars rt rest as

/-- `fmt.Sprintf`. -/
def Sprintf (rt : Runtime) (format : String) (args : List Arg) : String :=
  ⟨sprintfChars rt format.data args⟩

/-! ## Package strings, as far as the program uses it -/

/-- The pieces of `s` between the occurrences of the separator `sep`. -/
def splitChars (sep : Char) : List Char → List (List Char)
  | [] => [[]]
  | c :: cs =>
    if c = sep then [] :: splitChars sep cs
    else
      match splitChars sep cs with
      | [] => [[c]]
      | piece :: pieces => (c :: piece) :: pieces

/-- `strings.Split(s, sep)` for a separator of one character, the form in which
the program calls it (`"."` and `"-"`). -/
def Split (s : String) (sep : Char) : List String :=
  (splitChars sep s.data).map String.mk

/-- `strings.TrimSuffix(s, suffix)`: `s` without the trailing `suffix` when it
ends with it, `s` otherwise. -/
def TrimSuffix (s suffix : String) : String :=
  if suffix.data.isSuffixOf s.data = true then
    ⟨s.data.take (s.data.length - suffix.data.length)⟩
  else s

/-! ## The program -/

/-- An article: `type Article struct`. -/
structure Article where
  Name : String
  Tags : List String
  Date : String
  Content : String
  deriving DecidableEq, Repr

/-- The constant `pageName`. -/
def pageName : String := "learning"

/-- The constant `dateBegin`. -/
def dateBegin : Int := 10

/-- The raw string literal `body` of `createArticles`. -/
def body : String := "\nNostrum molestiae repellendus quidem distinctio debitis et fugiat\nEt deserunt voluptatum omnis voluptas optio mollitia officia et\nEnim ducimus autem laudantium\nAut porro qui veniam ut aperiam\nEst quo nulla nobis sunt impedit earum est.  \n\n### Subtitle  \n\nQui modi et veniam voluptas maiores quas.  \nOmnis ipsa molestiae ad.  \nOmnis placeat fuga ut.  \nSaepe eos id quae et quod dolore officiis.  \nSimilique voluptatem iure sit aut rerum et debitis.  \nOdio omnis aperiam dolor expedita et in aspernatur sequi.\n"

/-- The closure `min` of `createArticles`: starting from 0, the greatest value
met while ranging over the catalog. -/
def maxOf (tags : List (String × Int)) : Int :=
  tags.foldl (fun n e => if e.2 > n then e.2 else n) 0

/-- The article built by iteration `i` of the first loop of `createArticles`;
its `Tags` field is the nil slice. -/
def newArticle (rt : Runtime) (i : Nat) : Article where
  Content := Sprintf rt "%v" [.str body]
  Date := rt.stamp i (wrapInt (-(wrapInt ((i : Int) + dateBegin))))
  Name := Sprintf rt "%v-%v.md" [.str pageName, .int i]
  Tags := []

/-- The first loop of `createArticles`: `for i := 0; i < min+1; i++`, each
iteration appending one article. -/
def makeArticles (rt : Runtime) (min : Int) : List Article :=
  (List.range (wrapInt (min + 1)).toNat).map (newArticle rt)

/-- The statement `a.Tags = append(a.Tags, t)`. -/
def appendTag (t : String) (a : Article) : Article :=
  { a with Tags := a.Tags ++ [t] }

/-- One iteration of the second loop of `createArticles`, for the entry
`(t, n)`: the slice expression `articles[0 : n+1]` and the update of every
article of that slice.  A negative bound panics in the slice expression.  A
bound above the length panics as well: in the slice expression when it is above
the capacity, and otherwise in `a.Tags`, the elements between length and
capacity being nil pointers.  In `createArticles` the second case does not
arise: there a bound exceeds the length only when the slice is nil (theorem
`bound_above_length`). -/
def tagFirst (articles : List Article) (t : String) (n : Int) :
    Except Panic (List Article) :=
  let hi := wrapInt (n + 1)
  if hi < 0 then .error .sliceBounds
  else if articles.length < hi.toNat then .error .sliceBounds
  else .ok ((articles.take hi.toNat).map (appendTag t) ++ articles.drop hi.toNat)

/-- The second loop of `createArticles`: `for t, n := range tags`, the entries
taken in the order `order`. -/
def tagLoop : List (String × Int) → List Article → Except Panic (List Article)
  | [], articles => .ok articles
  | (t, n) :: rest, articles =>
    match tagFirst articles t n with
    | .error e => .error e
    | .ok tagged => tagLoop rest tagged

/-- The function `createArticles`.  `order1` is the order in which the closure
`min` ranges over the map `tags`, `order2` the order in which the tagging loop
does. -/
def createArticles (rt : Runtime) (order1 order2 : List (String × Int)) :
    Except Panic (List Article) :=
  tagLoop order2 (makeArticles rt (maxOf order1))

/-- The function `stringifyTags`. -/
def stringifyTags (rt : Runtime) (ts : List String) : List String :=
  let s := ts.foldl (fun s t => s ++ Sprintf rt "%+q," [.str t]) ""
  [TrimSuffix s ","]

/-- An index expression `xs[i]`. -/
def index (xs : List String) (i : Nat) : Except Panic String :=
  match xs[i]? with
  | some x => .ok x
  | none => .error .indexRange

/-- The title computed by the loop body of `writeArticles`:
`t := strings.Split(a.Name, ".")`, `t = strings.Split(t[0], "-")`,
`title := fmt.Sprintf("%v %v", t[0], t[1])`. -/
def articleTitle (rt : Runtime) (a : Article) : Except Panic String :=
  match index (Split a.Name '.') 0 with
  | .error e => .error e
  | .ok stem =>
    let t := Split stem '-'
    match index t 0 with
    | .error e => .error e
    | .ok t0 =>
      match index t 1 with
      | .error e => .error e
      | .ok t1 => .ok (Sprintf rt "%v %v" [.str t0, .str t1])

/-- The string `str` composed by the loop body of `writeArticles`. -/
def articleText (rt : Runtime) (a : Article) : Except Panic String :=
  match articleTitle rt a with
  | .error e => .error e
  | .ok title =>
    let tags := stringifyTags rt a.Tags
    .ok (Sprintf rt "---\ntitle: %q\ndate: %v\ntags: %v\n---\n%v"
      [.str title, .str a.Date, .strs tags, .str a.Content])

/-! ## Predicates used in the statements -/

/-- A name from which `writeArticles` can derive a title: a hyphen stands
before the first dot (or anywhere, when the name has no dot). -/
def WellFormedName (name : String) : Prop :=
  '-' ∈ name.data.takeWhile (fun c => c != '.')

instance (name : String) : Decidable (WellFormedName name) := by
  unfold WellFormedName; infer_instance

/-- A decimal digit, `0` to `9`. -/
def IsDecimal (c : Char) : Prop := 48 ≤ c.toNat ∧ c.toNat ≤ 57

instance (c : Char) : Decidable (IsDecimal c) := by unfold IsDecimal; infer_instance

/-- A character that `strconv.Quote` and `strconv.QuoteToASCII` copy as it is:
printable ASCII other than the double quote and the backslash. -/
def IsCopied (c : Char) : Prop :=
  0x20 ≤ c.toNat ∧ c.toNat ≤ 0x7E ∧ c ≠ dquote ∧ c ≠ bslash

instance (c : Char) : Decidable (IsCopied c) := by unfold IsCopied; infer_instance

/-! ## Sample data -/

/-- A runtime on which the program can be evaluated: a clock that always
renders the same instant, and no printable rune above `0xFF`. -/
def sampleRuntime : Runtime where
  stamp := fun _ _ => "2024-01-01T00:00:00Z"
  printWide := fun _ => false

/-- The articles of the scenario of the specification: the catalog
`a: 1, b: 0`, the tagging loop visiting `b` before `a`, on `sampleRuntime`. -/
def scenarioArticles : List Article :=
  [⟨"learning-0.md", ["b", "a"], "2024-01-01T00:00:00Z", body⟩,
   ⟨"learning-1.md", ["a"], "2024-01-01T00:00:00Z", body⟩]

/-! ## The file system and the process, as far as `writeArticles` uses them

The functions of package `os` are outside the repository.  Their effect on the
directory `content/learning` is modelled for a POSIX system whose file names
are compared byte by byte; whether a call reports an error is decided by
`Faults`, except where the path itself rules success out. -/

/-- The bytes of a regular file. -/
inductive FileData where
  /-- The file holds exactly this text. -/
  | whole (text : String)
  /-- The file holds what a failed `WriteString` of this text left. -/
  | torn (text : String)
  deriving DecidableEq, Repr

/-- The state of the directory `content/learning`. -/
inductive Dir where
  /-- There is no such directory. -/
  | absent
  /-- The directory holds these regular files, in the order of their creation,
  and no other entry. -/
  | holds (files : List (String × FileData))
  /-- Any other state: one with subdirectories, or what a failed removal left. -/
  | unknown
  deriving DecidableEq, Repr

/-- Which calls into the file system report an error.  The calls of the loop
are numbered by the index `k` of the article. -/
structure Faults where
  /-- The call `os.RemoveAll(dir)`. -/
  removeAll : Bool
  /-- The call `os.Mkdir(dir, fs.ModePerm)`. -/
  mkdir : Bool
  /-- The call `os.Create` for article `k`. -/
  create : Nat → Bool
  /-- The call `f.WriteString(str)` for article `k`. -/
  write : Nat → Bool
  /-- The call `f.Close()` for the file of article `k`. -/
  close : Nat → Bool

/-- A call into the file system and whether it succeeded. -/
inductive Event where
  | removeAll (ok : Bool)
  | mkdir (ok : Bool)
  | create (k : Nat) (name : String) (ok : Bool)
  | write (k : Nat) (ok : Bool)
  | close (k : Nat) (ok : Bool)
  deriving DecidableEq, Repr

/-- Whether the call succeeded. -/
def Event.ok : Event → Bool
  | .removeAll ok => ok
  | .mkdir ok => ok
  | .create _ _ ok => ok
  | .write _ ok => ok
  | .close _ ok => ok

/-- Whether the call is an `os.Create` or a `WriteString`. -/
def Event.touchesArticle : Event → Bool
  | .create _ _ _ => true
  | .write _ _ => true
  | _ => false

/-- How a call of `writeArticles` ends. -/
inductive Exit where
  /-- The function returns. -/
  | returned
  /-- The call `log.Fatal(err)`: the process exits with status 1 at once, and
  no deferred call runs. -/
  | fatal
  /-- A run-time panic, after the deferred calls have run. -/
  | panicked (p : Panic)
  deriving DecidableEq, Repr

/-- A run: how it ends, the directory it leaves, and its calls into the file
system, oldest first. -/
structure Run where
  exit : Exit
  dir : Dir
  trace : List Event
  deriving DecidableEq, Repr

/-- The run `r` preceded by the calls `events`. -/
def Run.after (events : List Event) (r : Run) : Run :=
  { r with trace := events ++ r.trace }

/-- The entry that `os.Create("content/learning/" + name)` makes in a directory
without subdirectories: slashes in front are skipped, and the rest must be one
path element that can name a file.  `none` when no file can be created under
that path (an empty element, `.`, `..`, a NUL byte, or a further slash, whose
left side would have to be a subdirectory). -/
def entryName (name : String) : Option String :=
  let rest := name.data.dropWhile (fun c => c == '/')
  if rest = [] ∨ '/' ∈ rest ∨ Char.ofNat 0 ∈ rest ∨ rest = ['.'] ∨ rest = ['.', '.'] then none
  else some ⟨rest⟩

/-- The flags `O_CREATE|O_TRUNC` of `os.Create`: an existing file is emptied, a
new one is added. -/
def createFile (files : List (String × FileData)) (entry : String) :
    List (String × FileData) :=
  if entry ∈ files.map Prod.fst then
    files.map (fun f => if f.1 = entry then (f.1, FileData.whole "") else f)
  else files ++ [(entry, FileData.whole "")]

/-- The bytes of the file `entry` become `data`. -/
def setData (files : List (String × FileData)) (entry : String) (data : FileData) :
    List (String × FileData) :=
  files.map (fun f => if f.1 = entry then (f.1, data) else f)

/-- What a failed `os.RemoveAll` leaves: it removes what it can, so that the
model does not track the result unless there was nothing to remove. -/
def afterFailedRemoval : Dir → Dir
  | .absent => .absent
  | _ => .unknown

/-- The function `cleanWorkingDir`: `os.RemoveAll`, then `os.Mkdir`, each
followed by `log.Fatal` on error. -/
def cleanWorkingDir (fl : Faults) (prior : Dir) : Run :=
  if fl.removeAll = true then
    ⟨.fatal, afterFailedRemoval prior, [.removeAll false]⟩
  else if fl.mkdir = true then
    ⟨.fatal, .absent, [.removeAll true, .mkdir false]⟩
  else
    ⟨.returned, .holds [], [.removeAll true, .mkdir true]⟩

/-- The deferred calls, run last in first out: each closes its file and calls
`log.Fatal` when `Close` reports an error.  The result tells whether all of
them ran without error, and lists the calls made. -/
def runDeferred (fl : Faults) : List Nat → Bool × List Event
  | [] => (true, [])
  | k :: rest =>
    if fl.close k = true then (false, [.close k false])
    else
      let r := runDeferred fl rest
      (r.1, .close k true :: r.2)

/-- The loop of `writeArticles` from article `k` on.  `files` is the content of
the directory and `deferred` the stack of deferred closes, the latest first.
The body composes the text (which may panic), creates the file, defers its
close, then checks the error of `os.Create`, and writes. -/
def writeLoop (rt : Runtime) (fl : Faults) :
    Nat → List Article → List (String × FileData) → List Nat → Run
  | _, [], files, deferred =>
    let r := runDeferred fl deferred
    ⟨if r.1 = true then .returned else .fatal, .holds files, r.2⟩
  | k, a :: rest, files, deferred =>
    match articleText rt a with
    | .error p =>
      let r := runDeferred fl deferred
      ⟨if r.1 = true then .panicked p else .fatal, .holds files, r.2⟩
    | .ok str =>
      match (if fl.create k = true then none else entryName a.Name) with
      | none => ⟨.fatal, .holds files, [.create k a.Name false]⟩
      | some entry =>
        if fl.write k = true then
          ⟨.fatal, .holds (setData (createFile files entry) entry (.torn str)),
            [.create k a.Name true, .write k false]⟩
        else
          (writeLoop rt fl (k + 1) rest
            (setData (createFile files entry) entry (.whole str)) (k :: deferred)).after
            [.create k a.Name true, .write k true]

/-- The function `writeArticles`. -/
def writeArticles (rt : Runtime) (fl : Faults) (prior : Dir) (articles : List Article) : Run :=
  let c := cleanWorkingDir fl prior
  if c.exit = .returned then (writeLoop rt fl 0 articles [] []).after c.trace
  else c

/-- The handles that are open after the calls `events`, the latest first: a
successful `os.Create` opens one, `Close` releases it. -/
def openHandles (events : List Event) : List Nat :=
  events.foldl
    (fun hs e =>
      match e with
      | .create k _ true => k :: hs
      | .close k _ => hs.erase k
      | _ => hs)
    []

/-! ## Predicates on runs -/

/-- No call into the file system reported an error. -/
def NoFailure (r : Run) : Prop := ∀ e ∈ r.trace, e.ok = true

instance (r : Run) : Decidable (NoFailure r) := by unfold NoFailure; infer_instance

/-- The names a list of articles must have for `writeArticles` to write one file
for each: well formed, usable as they are as the name of a directory entry, and
pairwise distinct. -/
def PlainNames (articles : List Article) : Prop :=
  (∀ a ∈ articles, WellFormedName a.Name ∧ entryName a.Name = some a.Name) ∧
  (articles.map Article.Name).Nodup

instance (articles : List Article) : Decidable (PlainNames articles) := by
  unfold PlainNames; infer_instance

/-- The file `f` is the one of article `a`: it has its name and holds its
composed text. -/
def IsFileOf (rt : Runtime) (a : Article) (f : String × FileData) : Prop :=
  f.1 = a.Name ∧ ∃ s, articleText rt a = .ok s ∧ f.2 = .whole s

/-- The directory holds one file for each article of the list, in order, and
nothing else. -/
def HoldsExactly (rt : Runtime) (articles : List Article) (d : Dir) : Prop :=
  ∃ files, d = .holds files ∧ List.Forall₂ (IsFileOf rt) articles files

/-- No fault at all. -/
def noFaults : Faults where
  removeAll := false
  mkdir := false
  create := fun _ => false
  write := fun _ => false
  close := fun _ => false

/-- A fault in the first `WriteString` only. -/
def firstWriteFails : Faults where
  removeAll := false
  mkdir := false
  create := fun _ => false
  write := fun k => decide (k = 0)
  close := fun _ => false

/-- A fault in `os.Mkdir` only. -/
def mkdirFails : Faults where
  removeAll := false
  mkdir := true
  create := fun _ => false
  write := fun _ => false
  close := fun _ => false

/-! ## Decimal digits read back -/

/-- The number a list of decimal digits denotes, continuing from `acc`. -/
def decodeDigits (acc : Nat) (ds : List Char) : Nat :=
  ds.foldl (fun n c => n * 10 + (c.toNat - 48)) acc

/-! ## Lemmas: machine integers and the maximum -/

/-- Below the greatest `int`, `n+1` does not wrap around. -/
theorem wrapInt_succ_of_lt {n : Int} (h0 : 0 ≤ n) (h1 : n < maxInt) : wrapInt (n + 1) = n + 1 := by
  unfold wrapInt maxInt at *
  omega

/-- A non-negative `int` whose successor has not wrapped to a negative number is
below the greatest `int`. -/
theorem wrapInt_succ_nonneg {n : Int} (hin : InInt n) (h0 : 0 ≤ n) (h : 0 ≤ wrapInt (n + 1)) :
    n < maxInt := by
  unfold wrapInt InInt maxInt minInt at *
  omega

/-- The loop of the closure `min` never lowers its variable. -/
theorem foldl_max_ge_init (l : List (String × Int)) (init : Int) :
    init ≤ l.foldl (fun n e => if e.2 > n then e.2 else n) init := by
  induction l generalizing init with
  | nil => simp
  | cons e l ih =>
    simp only [List.foldl_cons]
    split
    · exact le_trans (by omega) (ih _)
    · exact ih _

/-- The result of the closure `min` is at least every value it has met. -/
theorem foldl_max_ge_mem (l : List (String × Int)) (init : Int) (e : String × Int) (he : e ∈ l) :
    e.2 ≤ l.foldl (fun n e => if e.2 > n then e.2 else n) init := by
  induction l generalizing init with
  | nil => simp at he
  | cons x l ih =>
    simp only [List.foldl_cons]
    rcases List.mem_cons.1 he with rfl | h
    · split
      · exact foldl_max_ge_init _ _
      · exact le_trans (by omega) (foldl_max_ge_init _ _)
    · exact ih _ h

/-- The result of the closure `min` is its initial value or a value it has met. -/
theorem foldl_max_attained (l : List (String × Int)) (init : Int) :
    l.foldl (fun n e => if e.2 > n then e.2 else n) init = init ∨
      ∃ e ∈ l, e.2 = l.foldl (fun n e => if e.2 > n then e.2 else n) init := by
  induction l generalizing init with
  | nil => simp
  | cons x l ih =>
    simp only [List.foldl_cons]
    split
    · rcases ih x.2 with h | ⟨e, he, h⟩
      · right; exact ⟨x, by simp, h.symm⟩
      · right; exact ⟨e, by simp [he], h⟩
    · rcases ih init with h | ⟨e, he, h⟩
      · left; exact h
      · right; exact ⟨e, by simp [he], h⟩

/-! ## Lemmas: the tagging loop -/

/-- One iteration of the tagging loop returns exactly when its slice bound lies
between 0 and the length. -/
theorem tagFirst_ok_iff (arts : List Article) (t : String) (n : Int) (res : List Article) :
    tagFirst arts t n = .ok res ↔
      0 ≤ wrapInt (n + 1) ∧ (wrapInt (n + 1)).toNat ≤ arts.length ∧
      res = (arts.take (wrapInt (n + 1)).toNat).map (appendTag t) ++
        arts.drop (wrapInt (n + 1)).toNat := by
  unfold tagFirst
  simp only
  split
  · constructor
    · intro h; cases h
    · rintro ⟨h, _⟩; omega
  · split
    · constructor
      · intro h; cases h
      · rintro ⟨_, h, _⟩; omega
    · constructor
      · intro h
        injection h with h
        exact ⟨by omega, by omega, h.symm⟩
      · rintro ⟨_, _, h⟩
        rw [h]

/-- The element at index `i` after the first `k` elements were updated. -/
theorem getElem?_mapTake (f : Article → Article) (arts : List Article) (k i : Nat) :
    ((arts.take k).map f ++ arts.drop k)[i]? =
      (arts[i]?).map (fun a => if i < k then f a else a) := by
  by_cases hk : k ≤ arts.length
  · by_cases hi : i < k
    · rw [List.getElem?_append_left (by simp; omega)]
      simp [List.getElem?_take, hi]
    · rw [List.getElem?_append_right (by simp; omega)]
      simp [hi, Nat.min_eq_left hk]
      congr 1; omega
  · have : arts.take k = arts := List.take_of_length_le (by omega)
    have hd : arts.drop k = [] := List.drop_of_length_le (by omega)
    rw [this, hd, List.append_nil]
    by_cases hi : i < arts.length
    · simp [hi, show i < k by omega]
    · simp [List.getElem?_eq_none (show arts.length ≤ i by omega)]

/-- Updating the first `k` elements keeps the length. -/
theorem length_mapTake (f : Article → Article) (arts : List Article) (k : Nat) :
    ((arts.take k).map f ++ arts.drop k).length = arts.length := by
  simp; omega

/-- What a run of the tagging loop that does not panic has done. -/
theorem tagLoop_ok (order : List (String × Int)) (arts res : List Article)
    (h : tagLoop order arts = .ok res) :
    res.length = arts.length ∧
    (∀ e ∈ order, 0 ≤ wrapInt (e.2 + 1) ∧ (wrapInt (e.2 + 1)).toNat ≤ arts.length) ∧
    ∀ (i : Nat) (a : Article), arts[i]? = some a → ∃ b, res[i]? = some b ∧ b.Name = a.Name ∧ b.Date = a.Date ∧
      b.Content = a.Content ∧
      b.Tags = a.Tags ++
        (order.filter (fun e => decide ((i : Int) < wrapInt (e.2 + 1)))).map Prod.fst := by
  induction order generalizing arts with
  | nil =>
    simp only [tagLoop] at h
    injection h with h
    subst h
    refine ⟨rfl, by simp, ?_⟩
    intro i a hia
    exact ⟨a, hia, rfl, rfl, rfl, by simp⟩
  | cons e rest ih =>
    obtain ⟨t, n⟩ := e
    simp only [tagLoop] at h
    split at h
    · cases h
    · rename_i tagged htag
      rw [tagFirst_ok_iff] at htag
      obtain ⟨h0, hlen, htagged⟩ := htag
      have hl : tagged.length = arts.length := by rw [htagged]; exact length_mapTake _ _ _
      obtain ⟨ihlen, ihb, ihp⟩ := ih tagged h
      refine ⟨by omega, ?_, ?_⟩
      · intro e he
        rcases List.mem_cons.1 he with rfl | he
        · exact ⟨h0, hlen⟩
        · have := ihb e he
          omega
      · intro i a hia
        have h1 : tagged[i]? = some (if i < (wrapInt (n + 1)).toNat then appendTag t a else a) := by
          rw [htagged, getElem?_mapTake, hia]; rfl
        obtain ⟨b, hb, hn, hd, hc, ht⟩ := ihp i _ h1
        refine ⟨b, hb, ?_, ?_, ?_, ?_⟩
        · rw [hn]; split <;> rfl
        · rw [hd]; split <;> rfl
        · rw [hc]; split <;> rfl
        · rw [ht]
          by_cases hi : i < (wrapInt (n + 1)).toNat
          · have hi2 : (i : Int) < wrapInt (n + 1) := by omega
            simp [hi, hi2, appendTag, List.filter_cons]
          · have hi2 : ¬ (i : Int) < wrapInt (n + 1) := by omega
            simp [hi, hi2, List.filter_cons]

/-- The tagging loop does not panic when every bound is in range. -/
theorem tagLoop_total (order : List (String × Int)) (arts : List Article)
    (h : ∀ e ∈ order, 0 ≤ wrapInt (e.2 + 1) ∧ (wrapInt (e.2 + 1)).toNat ≤ arts.length) :
    ∃ res, tagLoop order arts = .ok res := by
  induction order generalizing arts with
  | nil => exact ⟨arts, rfl⟩
  | cons e rest ih =>
    obtain ⟨t, n⟩ := e
    have he := h (t, n) (by simp)
    have htag := (tagFirst_ok_iff arts t n _).2 ⟨he.1, he.2, rfl⟩
    simp only [tagLoop, htag]
    apply ih
    intro e hmem
    rw [length_mapTake]
    exact h e (by simp [hmem])

/-! ## Lemmas: createArticles -/

/-- The closure `min` returns a non-negative number. -/
theorem maxOf_nonneg (l : List (String × Int)) : 0 ≤ maxOf l :=
  foldl_max_ge_init l 0

/-- The closure `min` returns the maximum of the catalog, 0 at least. -/
theorem maxOf_eq (l : List (String × Int)) (M : Int) (hub : ∀ e ∈ l, e.2 ≤ M) (h0 : 0 ≤ M)
    (hatt : M = 0 ∨ ∃ e ∈ l, e.2 = M) : maxOf l = M := by
  apply le_antisymm
  · rcases foldl_max_attained l 0 with h | ⟨e, he, h⟩
    · unfold maxOf; omega
    · unfold maxOf; rw [← h]; exact hub e he
  · rcases hatt with h | ⟨e, he, h⟩
    · rw [h]; exact maxOf_nonneg l
    · rw [← h]; exact foldl_max_ge_mem l 0 e he

/-- The number of articles the first loop creates. -/
theorem length_makeArticles (rt : Runtime) (m : Int) :
    (makeArticles rt m).length = (wrapInt (m + 1)).toNat := by
  simp [makeArticles]

/-- The article the first loop puts at index `i`. -/
theorem getElem?_makeArticles (rt : Runtime) (m : Int) (i : Nat) (a : Article)
    (h : (makeArticles rt m)[i]? = some a) : a = newArticle rt i := by
  unfold makeArticles at h
  rw [List.getElem?_map] at h
  by_cases hi : i < (wrapInt (m + 1)).toNat
  · rw [List.getElem?_range hi] at h
    simpa using h.symm
  · rw [List.getElem?_eq_none (by simp; omega)] at h
    simp at h

/-- What a call of `createArticles` that returns has computed. -/
theorem createArticles_ok (rt : Runtime) (order1 order2 : List (String × Int))
    (arts : List Article) (h : createArticles rt order1 order2 = .ok arts) :
    arts.length = (wrapInt (maxOf order1 + 1)).toNat ∧
    (∀ e ∈ order2, 0 ≤ wrapInt (e.2 + 1) ∧ (wrapInt (e.2 + 1)).toNat ≤ arts.length) ∧
    ∀ (i : Nat) (b : Article), arts[i]? = some b →
      b.Name = (newArticle rt i).Name ∧ b.Date = (newArticle rt i).Date ∧
      b.Content = (newArticle rt i).Content ∧
      b.Tags = (order2.filter (fun e => decide ((i : Int) < wrapInt (e.2 + 1)))).map Prod.fst := by
  unfold createArticles at h
  obtain ⟨hlen, hb, hp⟩ := tagLoop_ok order2 _ arts h
  rw [length_makeArticles] at hlen
  refine ⟨hlen, ?_, ?_⟩
  · intro e he
    have := hb e he
    rw [length_makeArticles] at this
    omega
  · intro i b hib
    have hi : i < (makeArticles rt (maxOf order1)).length := by
      rw [length_makeArticles, ← hlen]
      by_contra hc
      rw [List.getElem?_eq_none (by omega)] at hib
      cases hib
    obtain ⟨a, ha⟩ : ∃ a, (makeArticles rt (maxOf order1))[i]? = some a :=
      ⟨_, List.getElem?_eq_getElem hi⟩
    obtain ⟨b2, hb2, hn, hd, hc, ht⟩ := hp i a ha
    have hbb : b2 = b := by rw [hib] at hb2; injection hb2 with hb2; exact hb2.symm
    subst hbb
    have hnew := getElem?_makeArticles rt _ i a ha
    subst hnew
    refine ⟨hn, hd, hc, ?_⟩
    rw [ht]; simp [newArticle]

/-- In a call that returns, on a catalog of non-negative `int` frequencies, the
bound `n+1` of every slice expression has not wrapped around. -/
theorem lt_maxInt_of_ok (rt : Runtime) (order1 order2 : List (String × Int))
    (hint : ∀ e ∈ order2, InInt e.2) (hnn : ∀ e ∈ order2, 0 ≤ e.2)
    (arts : List Article) (h : createArticles rt order1 order2 = .ok arts) :
    ∀ e ∈ order2, e.2 < maxInt := by
  intro e he
  exact wrapInt_succ_nonneg (hint e he) (hnn e he) ((createArticles_ok rt _ _ _ h).2.1 e he).1

/-- The tags of article `i` in a call that returns, on a catalog of
non-negative `int` frequencies. -/
theorem tags_of_ok (rt : Runtime) (order1 order2 : List (String × Int))
    (hint : ∀ e ∈ order2, InInt e.2) (hnn : ∀ e ∈ order2, 0 ≤ e.2)
    (arts : List Article) (h : createArticles rt order1 order2 = .ok arts)
    (i : Nat) (a : Article) (hia : arts[i]? = some a) :
    a.Tags = (order2.filter (fun e => decide ((i : Int) ≤ e.2))).map Prod.fst := by
  rw [((createArticles_ok rt _ _ _ h).2.2 i a hia).2.2.2]
  congr 1
  apply List.filter_congr
  intro e he
  have h1 := lt_maxInt_of_ok rt _ _ hint hnn arts h e he
  rw [wrapInt_succ_of_lt (hnn e he) h1]
  simp only [decide_eq_decide]
  omega

/-- When no frequency is negative or `maxInt`, `createArticles` returns. -/
theorem createArticles_total (rt : Runtime) (order1 order2 : List (String × Int))
    (hperm : order1.Perm order2) (hnn : ∀ e ∈ order2, 0 ≤ e.2)
    (hlt : ∀ e ∈ order2, e.2 < maxInt) :
    ∃ arts, createArticles rt order1 order2 = .ok arts := by
  unfold createArticles
  apply tagLoop_total
  intro e he
  rw [length_makeArticles]
  have hmax : maxOf order1 < maxInt := by
    rcases foldl_max_attained order1 0 with h | ⟨x, hx, h⟩
    · unfold maxOf; rw [h]; decide
    · unfold maxOf; rw [← h]; exact hlt x (hperm.mem_iff.1 hx)
  have hle : e.2 ≤ maxOf order1 := foldl_max_ge_mem order1 0 e (hperm.mem_iff.2 he)
  rw [wrapInt_succ_of_lt (hnn e he) (hlt e he), wrapInt_succ_of_lt (maxOf_nonneg _) hmax]
  have := hnn e he
  omega

/-- In `createArticles` a slice bound that is not negative exceeds the length
of the article list only when that list is empty: the slice is then nil, of
capacity 0, and the panic is the one of the slice expression. -/
theorem bound_above_length (rt : Runtime) (order1 order2 : List (String × Int))
    (hperm : order1.Perm order2) (hint : ∀ e ∈ order2, InInt e.2)
    (e : String × Int) (he : e ∈ order2) (h0 : 0 ≤ wrapInt (e.2 + 1))
    (hlen : (makeArticles rt (maxOf order1)).length < (wrapInt (e.2 + 1)).toNat) :
    (makeArticles rt (maxOf order1)).length = 0 := by
  rw [length_makeArticles] at hlen ⊢
  have hle : e.2 ≤ maxOf order1 := foldl_max_ge_mem order1 0 e (hperm.mem_iff.2 he)
  have hM0 := maxOf_nonneg order1
  have hMle : maxOf order1 ≤ maxInt := by
    rcases foldl_max_attained order1 0 with h | ⟨x, hx, h⟩
    · unfold maxOf; rw [h]; decide
    · unfold maxOf; rw [← h]; exact (hint x (hperm.mem_iff.1 hx)).2
  have hin := hint e he
  unfold InInt minInt maxInt at hin
  unfold maxInt at hMle
  unfold wrapInt at h0 hlen ⊢
  omega

/-! ## Lemmas: createArticles, orders and negative frequencies -/

/-- The closure `min` returns the same number in every visiting order. -/
theorem maxOf_perm {o1 o2 : List (String × Int)} (h : o1.Perm o2) : maxOf o1 = maxOf o2 := by
  apply maxOf_eq o1 (maxOf o2) (fun e he => foldl_max_ge_mem o2 0 e (h.mem_iff.1 he))
    (maxOf_nonneg o2)
  rcases foldl_max_attained o2 0 with h0 | ⟨e, he, h1⟩
  · exact Or.inl h0
  · exact Or.inr ⟨e, h.mem_iff.2 he, h1⟩

/-- The only panic of the tagging loop is the one of the slice expression. -/
theorem tagLoop_error (order : List (String × Int)) (arts : List Article) (p : Panic)
    (h : tagLoop order arts = .error p) : p = .sliceBounds := by
  induction order generalizing arts with
  | nil => simp [tagLoop] at h
  | cons e rest ih =>
    obtain ⟨t, n⟩ := e
    simp only [tagLoop] at h
    split at h
    · rename_i e2 htag
      unfold tagFirst at htag
      simp only at htag
      split at htag
      · injection htag with htag; injection h with h; rw [← h, ← htag]
      · split at htag
        · injection htag with htag; injection h with h; rw [← h, ← htag]
        · cases htag
    · exact ih _ h

/-- A call of `createArticles` that does not return has panicked in the slice
expression. -/
theorem createArticles_error_of_not_ok (rt : Runtime) (order1 order2 : List (String × Int))
    (h : ¬ ∃ arts, createArticles rt order1 order2 = .ok arts) :
    createArticles rt order1 order2 = .error .sliceBounds := by
  cases hc : createArticles rt order1 order2 with
  | ok arts => exact absurd ⟨arts, hc⟩ h
  | error p =>
    unfold createArticles at hc
    rw [tagLoop_error _ _ p hc]

/-- Between `-1` and the greatest `int`, `n+1` does not wrap around. -/
theorem wrapInt_succ_of_ge {n : Int} (h0 : -1 ≤ n) (h1 : n < maxInt) : wrapInt (n + 1) = n + 1 := by
  unfold wrapInt maxInt at *
  omega

/-- When every frequency is at least `-1` and below the greatest `int`,
`createArticles` returns. -/
theorem createArticles_total_of_ge (rt : Runtime) (order1 order2 : List (String × Int))
    (hperm : order1.Perm order2) (hb : ∀ e ∈ order2, -1 ≤ e.2 ∧ e.2 < maxInt) :
    ∃ arts, createArticles rt order1 order2 = .ok arts := by
  unfold createArticles
  apply tagLoop_total
  intro e he
  rw [length_makeArticles]
  have hmax : maxOf order1 < maxInt := by
    rcases foldl_max_attained order1 0 with h | ⟨x, hx, h⟩
    · unfold maxOf; rw [h]; decide
    · unfold maxOf; rw [← h]; exact (hb x (hperm.mem_iff.1 hx)).2
  have hle : e.2 ≤ maxOf order1 := foldl_max_ge_mem order1 0 e (hperm.mem_iff.2 he)
  rw [wrapInt_succ_of_ge (hb e he).1 (hb e he).2, wrapInt_succ_of_lt (maxOf_nonneg _) hmax]
  have := (hb e he).1
  omega

/-- The content of every new article is the literal `body`. -/
theorem newArticle_Content (rt : Runtime) (i : Nat) : (newArticle rt i).Content = body := by
  show String.mk (body.data ++ []) = body
  rw [List.append_nil]

/-- The name given to the article of iteration `i`. -/
theorem newArticle_Name (rt : Runtime) (i : Nat) : 
    (newArticle rt i).Name = "learning-" ++ Nat.repr i ++ ".md" := by
  apply String.ext
  simp [newArticle, Sprintf, sprintfChars, fmtV, pageName]
  rfl

/-- The number of elements satisfying a test that holds exactly below index `k`. -/
theorem filter_eq_take_of_index {α : Type} (p : α → Bool) (l : List α) (k : Nat) (hk : k ≤ l.length)
    (h1 : ∀ (i : Nat) (a : α), i < k → l[i]? = some a → p a = true)
    (h2 : ∀ (i : Nat) (a : α), k ≤ i → l[i]? = some a → p a = false) :
    (l.filter p).length = k := by
  induction l generalizing k with
  | nil => simp at hk; simp [hk]
  | cons x l ih =>
    cases k with
    | zero =>
      have : ∀ a ∈ x :: l, p a = false := by
        intro a ha
        obtain ⟨i, hi⟩ := List.getElem?_of_mem ha
        exact h2 i a (Nat.zero_le _) hi
      rw [List.filter_eq_nil_iff.2 (by intro a ha; simp [this a ha])]
      rfl
    | succ k =>
      have hx : p x = true := h1 0 x (Nat.succ_pos _) (by simp)
      rw [List.filter_cons_of_pos hx, List.length_cons]
      congr 1
      apply ih k (by simpa using hk)
      · intro i a hi hia
        exact h1 (i + 1) a (by omega) (by simpa using hia)
      · intro i a hi hia
        exact h2 (i + 1) a (by omega) (by simpa using hia)

/-! ## Lemmas: strings -/

/-- The operand of `s +=` in `stringifyTags`. -/
theorem Sprintf_plusQ_comma (rt : Runtime) (t : String) :
    Sprintf rt "%+q," [.str t] = QuoteToASCII rt t ++ "," := by
  apply String.ext
  simp [Sprintf, sprintfChars, fmtQ, QuoteToASCII]

/-- The characters of the auxiliary loop of `String.intercalate`. -/
theorem data_intercalate_go (acc s : String) (l : List String) :
    (String.intercalate.go acc s l).data =
      acc.data ++ (l.map (fun a => s.data ++ a.data)).flatten := by
  induction l generalizing acc with
  | nil => simp [String.intercalate.go]
  | cons a l ih => simp [String.intercalate.go, ih, List.append_assoc]

/-- The characters accumulated by a loop of `s += f t`. -/
theorem data_foldl_append (f : String → String) (ts : List String) (init : String) :
    (ts.foldl (fun s t => s ++ f t) init).data =
      init.data ++ (ts.map (fun t => (f t).data)).flatten := by
  induction ts generalizing init with
  | nil => simp
  | cons t ts ih => simp [ih, List.append_assoc]

/-- A comma after every token is a comma between the tokens and one more. -/
theorem flatten_comma (qs : List String) (hne : qs ≠ []) :
    (qs.map (fun q => (q ++ ",").data)).flatten = (",".intercalate qs).data ++ [','] := by
  cases qs with
  | nil => exact absurd rfl hne
  | cons q qs =>
    simp only [String.intercalate, data_intercalate_go]
    clear hne
    induction qs generalizing q with
    | nil => simp
    | cons p ps ih =>
      have := ih p
      simp only [List.map_cons, List.flatten_cons, String.data_append] at this ⊢
      rw [this]
      simp [List.append_assoc]

/-- Trimming the comma that was appended last. -/
theorem TrimSuffix_comma (x : String) : TrimSuffix (x ++ ",") "," = x := by
  unfold TrimSuffix
  have h : (",".data).isSuffixOf (x ++ ",").data = true := by
    rw [List.isSuffixOf_iff_suffix]
    exact ⟨x.data, by simp⟩
  rw [if_pos h]
  apply String.ext
  simp

/-- The value of `stringifyTags` on a non-empty list. -/
theorem stringifyTags_eq (rt : Runtime) (ts : List String) (hne : ts ≠ []) :
    stringifyTags rt ts = [",".intercalate (ts.map (QuoteToASCII rt))] := by
  unfold stringifyTags
  simp only [Sprintf_plusQ_comma]
  have : ts.foldl (fun s t => s ++ (QuoteToASCII rt t ++ ",")) "" =
      ",".intercalate (ts.map (QuoteToASCII rt)) ++ "," := by
    apply String.ext
    rw [data_foldl_append (fun t => QuoteToASCII rt t ++ ",")]
    have := flatten_comma (ts.map (QuoteToASCII rt)) (by simpa using hne)
    simp only [List.map_map] at this
    simp only [String.data_append]
    simpa [Function.comp_def] using this
  rw [this, TrimSuffix_comma]

/-- A quoted token begins with a double quote. -/
theorem head?_QuoteToASCII (rt : Runtime) (t : String) :
    (QuoteToASCII rt t).data.head? = some dquote := by
  simp [QuoteToASCII, quoteWith]

/-- A quoted token ends with a double quote. -/
theorem getLast?_QuoteToASCII (rt : Runtime) (t : String) :
    (QuoteToASCII rt t).data.getLast? = some dquote := by
  simp only [QuoteToASCII, quoteWith]
  rw [← List.cons_append, List.getLast?_concat]

/-- The last character of a separated concatenation. -/
theorem getLast?_flatten_sep (d : Char) (s : List Char) (qs : List String) (acc : List Char)
    (hacc : acc.getLast? = some d) (h : ∀ q ∈ qs, q.data.getLast? = some d) :
    (acc ++ (qs.map (fun a => s ++ a.data)).flatten).getLast? = some d := by
  induction qs generalizing acc with
  | nil => simpa using hacc
  | cons q qs ih =>
    simp only [List.map_cons, List.flatten_cons]
    rw [← List.append_assoc]
    apply ih
    · rw [List.getLast?_append, List.getLast?_append, h q (by simp)]
      rfl
    · intro p hp
      exact h p (by simp [hp])

/-- The ten digit characters are decimal digits. -/
theorem digitChar_decimal (d : Nat) (h : d < 10) : IsDecimal (Nat.digitChar d) := by
  unfold IsDecimal
  interval_cases d <;> decide

/-- The loop of `Nat.toDigits` in base 10 produces decimal digits only. -/
theorem toDigitsCore_decimal (fuel n : Nat) (ds : List Char) (h : ∀ c ∈ ds, IsDecimal c) :
    ∀ c ∈ Nat.toDigitsCore 10 fuel n ds, IsDecimal c := by
  induction fuel generalizing n ds with
  | zero => simpa [Nat.toDigitsCore] using h
  | succ fuel ih =>
    have hd : ∀ c ∈ Nat.digitChar (n % 10) :: ds, IsDecimal c := by
      intro c hc
      rcases List.mem_cons.1 hc with rfl | hc
      · exact digitChar_decimal _ (Nat.mod_lt _ (by decide))
      · exact h c hc
    simp only [Nat.toDigitsCore]
    split
    · exact hd
    · exact ih _ _ hd

/-- The decimal rendering of a natural number is made of decimal digits. -/
theorem repr_decimal (n : Nat) : ∀ c ∈ (Nat.repr n).data, IsDecimal c := by
  show ∀ c ∈ (Nat.toDigits 10 n), IsDecimal c
  exact toDigitsCore_decimal _ _ _ (by simp)

/-- A text without the separator is one piece. -/
theorem splitChars_of_not_mem (sep : Char) (x : List Char) (h : sep ∉ x) :
    splitChars sep x = [x] := by
  induction x with
  | nil => rfl
  | cons c cs ih =>
    have hc : c ≠ sep := fun e => h (by simp [e])
    have hcs : sep ∉ cs := fun e => h (by simp [e])
    simp [splitChars, hc, ih hcs]

/-- The first piece ends at the first separator. -/
theorem splitChars_append_sep (sep : Char) (x rest : List Char) (h : sep ∉ x) :
    splitChars sep (x ++ sep :: rest) = x :: splitChars sep rest := by
  induction x with
  | nil => simp [splitChars]
  | cons c cs ih =>
    have hc : c ≠ sep := fun e => h (by simp [e])
    have hcs : sep ∉ cs := fun e => h (by simp [e])
    simp [splitChars, hc, ih hcs]

/-- A decimal digit is copied by the quoting functions. -/
theorem IsDecimal.copied {c : Char} (h : IsDecimal c) : IsCopied c := by
  unfold IsDecimal at h
  refine ⟨by omega, by omega, ?_, ?_⟩
  · rintro rfl; revert h; decide
  · rintro rfl; revert h; decide

/-- A decimal digit is not the dot. -/
theorem IsDecimal.ne_dot {c : Char} (h : IsDecimal c) : c ≠ '.' := by
  rintro rfl; revert h; decide

/-- A decimal digit is not the hyphen. -/
theorem IsDecimal.ne_hyphen {c : Char} (h : IsDecimal c) : c ≠ '-' := by
  rintro rfl; revert h; decide

/-- The escape of a copied character is the character. -/
theorem escapedRune_copied (rt : Runtime) (c : Char) (b : Bool) (h : IsCopied c) :
    escapedRune rt c dquote b = [c] := by
  obtain ⟨h1, h2, h3, h4⟩ := h
  have hp : IsPrint rt c = true := by
    unfold IsPrint
    rw [if_pos (by omega), if_pos ⟨h1, h2⟩]
  unfold escapedRune
  rw [if_neg (by simp [h3, h4])]
  cases b
  · rw [if_neg (by simp), if_pos ⟨rfl, hp⟩]
  · rw [if_pos ⟨rfl, by omega, hp⟩]

/-- Quoting a text of copied characters puts it between double quotes. -/
theorem quoteWith_copied (rt : Runtime) (b : Bool) (s : List Char) (h : ∀ c ∈ s, IsCopied c) :
    quoteWith rt b s = dquote :: (s ++ [dquote]) := by
  unfold quoteWith
  congr 2
  induction s with
  | nil => rfl
  | cons c s ih =>
    rw [List.flatMap_cons, escapedRune_copied rt c b (h c (by simp)), ih (fun d hd => h d (by simp [hd]))]
    rfl

/-- The name of a generated article splits at its dot into stem and extension. -/
theorem Split_name (i : Nat) :
    Split ("learning-" ++ Nat.repr i ++ ".md") '.' = ["learning-" ++ Nat.repr i, "md"] := by
  unfold Split
  have hdot : '.' ∉ ("learning-" ++ Nat.repr i).data := by
    simp only [String.data_append, List.mem_append, not_or]
    exact ⟨by decide, fun h => (repr_decimal i _ h).ne_dot rfl⟩
  have : ("learning-" ++ Nat.repr i ++ ".md").data = ("learning-" ++ Nat.repr i).data ++ '.' :: ['m', 'd'] := by
    simp
  rw [this, splitChars_append_sep _ _ _ hdot, splitChars_of_not_mem _ _ (by decide)]
  rfl

/-- The stem of a generated article splits at its hyphen into page name and index. -/
theorem Split_stem (i : Nat) :
    Split ("learning-" ++ Nat.repr i) '-' = ["learning", Nat.repr i] := by
  unfold Split
  have hh : '-' ∉ (Nat.repr i).data := fun h => (repr_decimal i _ h).ne_hyphen rfl
  have : ("learning-" ++ Nat.repr i).data = "learning".data ++ '-' :: (Nat.repr i).data := by
    simp
  rw [this, splitChars_append_sep _ _ _ (by decide), splitChars_of_not_mem _ _ hh]
  rfl

/-- The result of `stringifyTags` has one element. -/
theorem stringifyTags_singleton (rt : Runtime) (ts : List String) :
    ∃ tok, stringifyTags rt ts = [tok] := ⟨_, rfl⟩

/-- The format of the file text, on a tag list of one element. -/
theorem Sprintf_text (rt : Runtime) (title date tok content : String) :
    Sprintf rt "---\ntitle: %q\ndate: %v\ntags: %v\n---\n%v"
        [.str title, .str date, .strs [tok], .str content] =
      "---\n" ++ "title: " ++ Quote rt title ++ "\n" ++ "date: " ++ date ++ "\n" ++
      "tags: [" ++ tok ++ "]" ++ "\n" ++ "---\n" ++ content := by
  apply String.ext
  simp [Sprintf, sprintfChars, fmtV, fmtQ, Quote]

/-- The title derived from the name of a generated article. -/
theorem articleTitle_name (rt : Runtime) (a : Article) (i : Nat)
    (h : a.Name = "learning-" ++ Nat.repr i ++ ".md") :
    articleTitle rt a = .ok ("learning " ++ Nat.repr i) := by
  unfold articleTitle
  rw [h, Split_name]
  simp only [index, List.getElem?_cons_zero, Split_stem, List.getElem?_cons_succ]
  congr 1
  apply String.ext
  simp [Sprintf, sprintfChars, fmtV]

/-- The title of a generated article needs no escape. -/
theorem Quote_title (rt : Runtime) (i : Nat) :
    Quote rt ("learning " ++ Nat.repr i) = "\"learning " ++ Nat.repr i ++ "\"" := by
  apply String.ext
  unfold Quote
  rw [quoteWith_copied]
  · simp; rfl
  · intro c hc
    simp only [String.data_append, List.mem_append] at hc
    rcases hc with hc | hc
    · revert c; decide
    · exact (repr_decimal i c hc).copied

/-- The first piece of a split is the text before the first separator. -/
theorem splitChars_eq_cons (sep : Char) (l : List Char) :
    ∃ tail, splitChars sep l = l.takeWhile (fun c => c != sep) :: tail := by
  induction l with
  | nil => exact ⟨[], rfl⟩
  | cons c cs ih =>
    obtain ⟨tail, ht⟩ := ih
    by_cases hc : c = sep
    · exact ⟨splitChars sep cs, by simp [splitChars, hc]⟩
    · exact ⟨tail, by simp [splitChars, hc, ht]⟩

/-- A split has one piece more than the text has separators. -/
theorem length_splitChars (sep : Char) (l : List Char) :
    (splitChars sep l).length = l.count sep + 1 := by
  induction l with
  | nil => rfl
  | cons c cs ih =>
    obtain ⟨tail, ht⟩ := splitChars_eq_cons sep cs
    by_cases hc : c = sep
    · simp [splitChars, hc, ih]
    · have : ¬ (c == sep) = true := by simpa using hc
      rw [List.count_cons, if_neg this, ← ih]
      simp [splitChars, hc, ht]

/-- The title derivation succeeds exactly on the well-formed names. -/
theorem articleTitle_ok_iff (rt : Runtime) (a : Article) :
    (∃ title, articleTitle rt a = .ok title) ↔ WellFormedName a.Name := by
  obtain ⟨tail, ht⟩ := splitChars_eq_cons '.' a.Name.data
  have h0 : index (Split a.Name '.') 0 =
      .ok ⟨a.Name.data.takeWhile (fun c => c != '.')⟩ := by
    simp [Split, ht, index]
  obtain ⟨tail2, ht2⟩ := splitChars_eq_cons '-' (a.Name.data.takeWhile (fun c => c != '.'))
  have hlen := length_splitChars '-' (a.Name.data.takeWhile (fun c => c != '.'))
  unfold articleTitle WellFormedName
  rw [h0]
  simp only [Split, ht2, index, List.map_cons, List.getElem?_cons_zero, List.getElem?_cons_succ]
  rw [ht2, List.length_cons] at hlen
  constructor
  · rintro ⟨title, h⟩
    cases tail2 with
    | nil =>
      simp at h
    | cons p ps =>
      have : 0 < List.count '-' (a.Name.data.takeWhile (fun c => c != '.')) := by
        simp at hlen; omega
      exact List.count_pos_iff.1 this
  · intro h
    have : 0 < List.count '-' (a.Name.data.takeWhile (fun c => c != '.')) :=
      List.count_pos_iff.2 h
    cases tail2 with
    | nil => simp at hlen; omega
    | cons p ps => simp

/-! ## Lemmas: the writer -/

/-- The deferred calls all ran when none of their closes reported an error. -/
theorem runDeferred_ok (fl : Faults) (deferred : List Nat)
    (h : ∀ e ∈ (runDeferred fl deferred).2, e.ok = true) : (runDeferred fl deferred).1 = true := by
  induction deferred with
  | nil => rfl
  | cons k rest ih =>
    unfold runDeferred at h ⊢
    split
    · rename_i hk
      rw [if_pos hk] at h
      have := h (.close k false) (by simp)
      cases this
    · rename_i hk
      rw [if_neg hk] at h
      apply ih
      intro e he
      exact h e (by simp [he])

/-- A well-formed name yields a composed text. -/
theorem articleText_ok (rt : Runtime) (a : Article) (h : WellFormedName a.Name) :
    ∃ str, articleText rt a = .ok str := by
  obtain ⟨title, htitle⟩ := (articleTitle_ok_iff rt a).2 h
  unfold articleText
  rw [htitle]
  exact ⟨_, rfl⟩

/-- Creating a file under a new name and writing it adds one entry. -/
theorem setData_createFile (files : List (String × FileData)) (entry : String) (d : FileData)
    (h : entry ∉ files.map Prod.fst) :
    setData (createFile files entry) entry d = files ++ [(entry, d)] := by
  unfold createFile
  rw [if_neg h]
  unfold setData
  rw [List.map_append]
  congr 1
  · conv => rhs; rw [← List.map_id files]
    apply List.map_congr_left
    intro f hf
    have : f.1 ≠ entry := fun e => h (e ▸ List.mem_map_of_mem _ hf)
    simp [this]
  · simp

/-- The loop of `writeArticles` on plain names, in a run without failure: it
returns, and has added one file for each article. -/
theorem writeLoop_clean (rt : Runtime) (fl : Faults) (arts : List Article) :
    ∀ (k : Nat) (files : List (String × FileData)) (deferred : List Nat),
    PlainNames arts → (∀ a ∈ arts, a.Name ∉ files.map Prod.fst) →
    NoFailure (writeLoop rt fl k arts files deferred) →
    (writeLoop rt fl k arts files deferred).exit = .returned ∧
    ∃ added, (writeLoop rt fl k arts files deferred).dir = .holds (files ++ added) ∧
      List.Forall₂ (IsFileOf rt) arts added := by
  induction arts with
  | nil =>
    intro k files deferred _ _ hok
    have h1 := runDeferred_ok fl deferred hok
    refine ⟨?_, [], ?_, List.Forall₂.nil⟩
    · simp [writeLoop, h1]
    · simp [writeLoop]
  | cons a rest ih =>
    intro k files deferred hnames hfresh hok
    obtain ⟨hall, hnodup⟩ := hnames
    obtain ⟨hwf, hentry⟩ := hall a (by simp)
    obtain ⟨str, hstr⟩ := articleText_ok rt a hwf
    have hcreate : fl.create k = false := by
      by_contra hc
      have hc2 : fl.create k = true := by simpa using hc
      have := hok (.create k a.Name false) (by simp [writeLoop, hstr, hc2])
      cases this
    have hwrite : fl.write k = false := by
      by_contra hc
      have hc2 : fl.write k = true := by simpa using hc
      have := hok (.write k false) (by simp [writeLoop, hstr, hcreate, hentry, hc2])
      cases this
    have hnew := setData_createFile files a.Name (.whole str) (hfresh a (by simp))
    have hrun : writeLoop rt fl k (a :: rest) files deferred =
        (writeLoop rt fl (k + 1) rest (files ++ [(a.Name, .whole str)]) (k :: deferred)).after
          [.create k a.Name true, .write k true] := by
      simp [writeLoop, hstr, hcreate, hentry, hwrite, hnew]
    rw [hrun] at hok ⊢
    rw [List.map_cons, List.nodup_cons] at hnodup
    have hrest : PlainNames rest := ⟨fun b hb => hall b (by simp [hb]), hnodup.2⟩
    have hfresh2 : ∀ b ∈ rest, b.Name ∉ (files ++ [(a.Name, FileData.whole str)]).map Prod.fst := by
      intro b hb hmem
      simp only [List.map_append, List.map_cons, List.map_nil, List.mem_append,
        List.mem_singleton] at hmem
      rcases hmem with hmem | hmem
      · exact hfresh b (by simp [hb]) hmem
      · exact hnodup.1 (hmem ▸ List.mem_map_of_mem _ hb)
    have hok2 : NoFailure (writeLoop rt fl (k + 1) rest (files ++ [(a.Name, .whole str)])
        (k :: deferred)) := by
      intro e he
      exact hok e (by simp [Run.after, he])
    obtain ⟨hexit, added, hdir, hfor⟩ := ih (k + 1) _ (k :: deferred) hrest hfresh2 hok2
    refine ⟨by simpa [Run.after] using hexit, (a.Name, .whole str) :: added, ?_, ?_⟩
    · simp only [Run.after, hdir, List.append_assoc, List.singleton_append]
    · exact List.Forall₂.cons ⟨rfl, str, hstr, rfl⟩ hfor

/-- A run of `writeArticles` on plain names without failure returns and leaves
one file for each article and nothing else, whatever was there before. -/
theorem writeArticles_clean (rt : Runtime) (fl : Faults) (prior : Dir) (arts : List Article)
    (hnames : PlainNames arts) (hok : NoFailure (writeArticles rt fl prior arts)) :
    (writeArticles rt fl prior arts).exit = .returned ∧
    HoldsExactly rt arts (writeArticles rt fl prior arts).dir := by
  have hr : fl.removeAll = false := by
    by_contra hc
    have hc2 : fl.removeAll = true := by simpa using hc
    have := hok (.removeAll false) (by simp [writeArticles, cleanWorkingDir, hc2])
    cases this
  have hm : fl.mkdir = false := by
    by_contra hc
    have hc2 : fl.mkdir = true := by simpa using hc
    have := hok (.mkdir false) (by simp [writeArticles, cleanWorkingDir, hr, hc2])
    cases this
  have hrun : writeArticles rt fl prior arts =
      (writeLoop rt fl 0 arts [] []).after [.removeAll true, .mkdir true] := by
    simp [writeArticles, cleanWorkingDir, hr, hm]
  rw [hrun] at hok ⊢
  have hok2 : NoFailure (writeLoop rt fl 0 arts [] []) := by
    intro e he
    exact hok e (by simp [Run.after, he])
  obtain ⟨hexit, added, hdir, hfor⟩ := writeLoop_clean rt fl arts 0 [] [] hnames (by simp) hok2
  refine ⟨by simpa [Run.after] using hexit, added, ?_, hfor⟩
  simpa [Run.after] using hdir

/-- The value of a digit character. -/
theorem toNat_digitChar (d : Nat) (h : d < 10) : (Nat.digitChar d).toNat - 48 = d := by
  interval_cases d <;> rfl

/-- Decoding undoes the loop of `Nat.toDigits` in base 10. -/
theorem decodeDigits_toDigitsCore (fuel n : Nat) (ds : List Char) (h : n < fuel) :
    decodeDigits 0 (Nat.toDigitsCore 10 fuel n ds) = decodeDigits n ds := by
  induction fuel generalizing n ds with
  | zero => omega
  | succ fuel ih =>
    simp only [Nat.toDigitsCore]
    split
    · rename_i h0
      have hn : n % 10 = n := Nat.mod_eq_of_lt (by omega)
      have hd := toNat_digitChar _ (Nat.mod_lt n (by decide : 0 < 10))
      simp only [decodeDigits, List.foldl_cons, Nat.zero_mul, Nat.zero_add]
      rw [hd, hn]
    · rename_i h0
      rw [ih (n / 10) _ (by omega)]
      simp only [decodeDigits, List.foldl_cons, toNat_digitChar _ (Nat.mod_lt n (by decide))]
      congr 1
      omega

/-- Decoding undoes the decimal rendering. -/
theorem decodeDigits_repr (n : Nat) : decodeDigits 0 (Nat.repr n).data = n := by
  show decodeDigits 0 (Nat.toDigitsCore 10 (n + 1) n []) = n
  rw [decodeDigits_toDigitsCore _ _ _ (by omega)]
  rfl

/-- Distinct numbers have distinct decimal renderings. -/
theorem repr_injective {i j : Nat} (h : Nat.repr i = Nat.repr j) : i = j := by
  have := congrArg (fun s => decodeDigits 0 s.data) h
  simpa [decodeDigits_repr] using this

/-- Distinct indices give distinct article names. -/
theorem name_injective {i j : Nat}
    (h : "learning-" ++ Nat.repr i ++ ".md" = "learning-" ++ Nat.repr j ++ ".md") : i = j := by
  apply repr_injective
  have := congrArg String.data h
  simp only [String.data_append, List.append_assoc] at this
  have h2 := List.append_cancel_left this
  have h3 := List.append_cancel_right h2
  exact String.ext h3

/-- The name of a generated article names a directory entry as it is. -/
theorem entryName_name (i : Nat) :
    entryName ("learning-" ++ Nat.repr i ++ ".md") = some ("learning-" ++ Nat.repr i ++ ".md") := by
  have hdata : ("learning-" ++ Nat.repr i ++ ".md").data =
      'l' :: ("earning-".data ++ (Nat.repr i).data ++ ".md".data) := by
    simp
  have hno : ∀ c ∈ ("learning-" ++ Nat.repr i ++ ".md").data, c ≠ '/' ∧ c ≠ Char.ofNat 0 := by
    intro c hc
    simp only [String.data_append, List.mem_append] at hc
    rcases hc with (hc | hc) | hc
    · revert c; decide
    · have := repr_decimal i c hc
      unfold IsDecimal at this
      constructor
      · rintro rfl; revert this; decide
      · rintro rfl; revert this; decide
    · revert c; decide
  unfold entryName
  have hdrop : List.dropWhile (fun c => c == '/') ("learning-" ++ Nat.repr i ++ ".md").data =
      ("learning-" ++ Nat.repr i ++ ".md").data := by
    rw [hdata, List.dropWhile_cons_of_neg (by decide)]
  simp only [hdrop]
  rw [if_neg]
  rintro (h | h | h | h | h)
  · rw [hdata] at h; cases h
  · exact (hno _ h).1 rfl
  · exact (hno _ h).2 rfl
  · rw [hdata] at h; injection h with h1 h2; revert h1; decide
  · rw [hdata] at h; injection h with h1 h2; revert h1; decide

/-- The articles `createArticles` returns have plain names. -/
theorem plainNames_of_created (rt : Runtime) (order1 order2 : List (String × Int))
    (arts : List Article) (hret : createArticles rt order1 order2 = .ok arts) :
    PlainNames arts := by
  have hname : ∀ (i : Nat) (a : Article), arts[i]? = some a →
      a.Name = "learning-" ++ Nat.repr i ++ ".md" := by
    intro i a hia
    rw [((createArticles_ok rt _ _ _ hret).2.2 i a hia).1, newArticle_Name]
  refine ⟨?_, ?_⟩
  · intro a ha
    obtain ⟨i, hia⟩ := List.getElem?_of_mem ha
    have hn := hname i a hia
    refine ⟨(articleTitle_ok_iff rt a).1 ⟨_, articleTitle_name rt a i hn⟩, ?_⟩
    rw [hn, entryName_name]
  · rw [List.nodup_iff_getElem?_ne_getElem?]
    intro i j hij hj heq
    rw [List.length_map] at hj
    have hi : i < arts.length := by omega
    rw [List.getElem?_map, List.getElem?_map, List.getElem?_eq_getElem hi,
      List.getElem?_eq_getElem hj] at heq
    simp only [Option.map_some', Option.some.injEq] at heq
    rw [hname i _ (List.getElem?_eq_getElem hi), hname j _ (List.getElem?_eq_getElem hj)] at heq
    have := name_injective heq
    omega

/-- Without faults the deferred calls all run, and each closes its file. -/
theorem runDeferred_noFaults (deferred : List Nat) :
    (runDeferred noFaults deferred).1 = true ∧
    ∀ e ∈ (runDeferred noFaults deferred).2, e.ok = true := by
  induction deferred with
  | nil => exact ⟨rfl, by simp [runDeferred]⟩
  | cons k rest ih =>
    have hk : noFaults.close k = false := rfl
    simp only [runDeferred, hk, Bool.false_eq_true, if_false]
    refine ⟨ih.1, ?_⟩
    intro e he
    rcases List.mem_cons.1 he with rfl | he
    · rfl
    · exact ih.2 e he

/-- The loop of `writeArticles` on plain names when no call into the file
system fails: it returns, no call has failed, and it has added one file for
each article. -/
theorem writeLoop_noFaults (rt : Runtime) (arts : List Article) :
    ∀ (k : Nat) (files : List (String × FileData)) (deferred : List Nat),
    PlainNames arts → (∀ a ∈ arts, a.Name ∉ files.map Prod.fst) →
    (writeLoop rt noFaults k arts files deferred).exit = .returned ∧
    NoFailure (writeLoop rt noFaults k arts files deferred) ∧
    ∃ added, (writeLoop rt noFaults k arts files deferred).dir = .holds (files ++ added) ∧
      List.Forall₂ (IsFileOf rt) arts added := by
  induction arts with
  | nil =>
    intro k files deferred _ _
    obtain ⟨h1, h2⟩ := runDeferred_noFaults deferred
    refine ⟨by simp [writeLoop, h1], ?_, [], by simp [writeLoop], List.Forall₂.nil⟩
    intro e he
    exact h2 e (by simpa [writeLoop] using he)
  | cons a rest ih =>
    intro k files deferred hnames hfresh
    obtain ⟨hall, hnodup⟩ := hnames
    obtain ⟨hwf, hentry⟩ := hall a (by simp)
    obtain ⟨str, hstr⟩ := articleText_ok rt a hwf
    have hcreate : noFaults.create k = false := rfl
    have hwrite : noFaults.write k = false := rfl
    have hnew := setData_createFile files a.Name (.whole str) (hfresh a (by simp))
    have hrun : writeLoop rt noFaults k (a :: rest) files deferred =
        (writeLoop rt noFaults (k + 1) rest (files ++ [(a.Name, .whole str)])
          (k :: deferred)).after [.create k a.Name true, .write k true] := by
      simp [writeLoop, hstr, hcreate, hentry, hwrite, hnew]
    rw [hrun]
    rw [List.map_cons, List.nodup_cons] at hnodup
    have hrest : PlainNames rest := ⟨fun b hb => hall b (by simp [hb]), hnodup.2⟩
    have hfresh2 : ∀ b ∈ rest, b.Name ∉ (files ++ [(a.Name, FileData.whole str)]).map Prod.fst := by
      intro b hb hmem
      simp only [List.map_append, List.map_cons, List.map_nil, List.mem_append,
        List.mem_singleton] at hmem
      rcases hmem with hmem | hmem
      · exact hfresh b (by simp [hb]) hmem
      · exact hnodup.1 (hmem ▸ List.mem_map_of_mem _ hb)
    obtain ⟨hexit, hok, added, hdir, hfor⟩ := ih (k + 1) _ (k :: deferred) hrest hfresh2
    refine ⟨by simpa [Run.after] using hexit, ?_, (a.Name, .whole str) :: added, ?_, ?_⟩
    · intro e he
      simp only [Run.after, List.cons_append, List.nil_append, List.mem_cons] at he
      rcases he with rfl | rfl | he
      · rfl
      · rfl
      · exact hok e he
    · simp only [Run.after, hdir, List.append_assoc, List.singleton_append]
    · exact List.Forall₂.cons ⟨rfl, str, hstr, rfl⟩ hfor

/-- When no call into the file system fails, `writeArticles` on plain names
returns and leaves one file for each article and nothing else, whatever was
there before. -/
theorem writeArticles_noFaults (rt : Runtime) (prior : Dir) (arts : List Article)
    (hnames : PlainNames arts) :
    (writeArticles rt noFaults prior arts).exit = .returned ∧
    NoFailure (writeArticles rt noFaults prior arts) ∧
    HoldsExactly rt arts (writeArticles rt noFaults prior arts).dir := by
  have hrun : writeArticles rt noFaults prior arts =
      (writeLoop rt noFaults 0 arts [] []).after [.removeAll true, .mkdir true] := by
    simp [writeArticles, cleanWorkingDir, noFaults]
  rw [hrun]
  obtain ⟨hexit, hok, added, hdir, hfor⟩ := writeLoop_noFaults rt arts 0 [] [] hnames (by simp)
  refine ⟨by simpa [Run.after] using hexit, ?_, added, by simpa [Run.after] using hdir, hfor⟩
  intro e he
  simp only [Run.after, List.cons_append, List.nil_append, List.mem_cons] at he
  rcases he with rfl | rfl | he
  · rfl
  · rfl
  · exact hok e he

/-! ## The article generator -/

/-- C1: a tag of frequency `n` is carried by the articles at indices `0..n`
of the returned list, which exist, by no article at a greater index, and hence
by exactly `n+1` articles. -/
theorem createArticles_tag_on_first (rt : Runtime) (order1 order2 : List (String × Int))
    (hkeys : (order2.map Prod.fst).Nodup)
    (hint : ∀ e ∈ order2, InInt e.2) (hnn : ∀ e ∈ order2, 0 ≤ e.2)
    (t : String) (n : Int) (htn : (t, n) ∈ order2)
    (arts : List Article) (hret : createArticles rt order1 order2 = .ok arts) :
    (∀ i : Nat, (i : Int) ≤ n → ∃ a, arts[i]? = some a ∧ t ∈ a.Tags) ∧
    (∀ (i : Nat) (a : Article), n < (i : Int) → arts[i]? = some a → t ∉ a.Tags) ∧
    ((arts.filter (fun a => decide (t ∈ a.Tags))).length : Int) = n + 1 := by
  have hn0 := hnn _ htn
  have hnlt := lt_maxInt_of_ok rt _ _ hint hnn arts hret _ htn
  have hbound := ((createArticles_ok rt _ _ _ hret).2.1 _ htn).2
  simp only [wrapInt_succ_of_lt hn0 hnlt] at hbound
  have hA : ∀ (i : Nat) (a : Article), arts[i]? = some a → (t ∈ a.Tags ↔ (i : Int) ≤ n) := by
    intro i a hia
    rw [tags_of_ok rt _ _ hint hnn arts hret i a hia]
    constructor
    · intro hmem
      obtain ⟨e, he, het⟩ := List.mem_map.1 hmem
      obtain ⟨he2, hie⟩ := List.mem_filter.1 he
      have : e = (t, n) := by
        have := List.inj_on_of_nodup_map hkeys he2 htn het
        exact this
      subst this
      simpa using hie
    · intro hi
      exact List.mem_map.2 ⟨(t, n), List.mem_filter.2 ⟨htn, by simpa using hi⟩, rfl⟩
  refine ⟨?_, ?_, ?_⟩
  · intro i hi
    have hlt : i < arts.length := by omega
    exact ⟨arts[i], List.getElem?_eq_getElem hlt, (hA i _ (List.getElem?_eq_getElem hlt)).2 hi⟩
  · intro i a hi hia hmem
    have := (hA i a hia).1 hmem
    omega
  · have := filter_eq_take_of_index (fun a => decide (t ∈ a.Tags)) arts (n + 1).toNat hbound
      (by intro i a hi hia; simpa using (hA i a hia).2 (by omega))
      (by intro i a hi hia; simpa using fun h => absurd ((hA i a hia).1 h) (by omega))
    rw [this]
    omega

set_option maxRecDepth 100000 in
/-- C1, witness: the catalog `a: 1, b: 0` and its tag `a`. -/
theorem createArticles_tag_on_first_witness :
    createArticles sampleRuntime [("a", 1), ("b", 0)] [("b", 0), ("a", 1)] = .ok scenarioArticles ∧
    ((∀ i : Nat, (i : Int) ≤ 1 → ∃ a, scenarioArticles[i]? = some a ∧ "a" ∈ a.Tags) ∧
     (∀ (i : Nat) (a : Article), 1 < (i : Int) → scenarioArticles[i]? = some a → "a" ∉ a.Tags) ∧
     ((scenarioArticles.filter (fun a => decide ("a" ∈ a.Tags))).length : Int) = 1 + 1) :=
  ⟨rfl, createArticles_tag_on_first sampleRuntime [("a", 1), ("b", 0)] [("b", 0), ("a", 1)]
    (by decide) (by decide) (by decide) "a" 1 (by decide) scenarioArticles rfl⟩

/-- C2, as stated, fails: the catalog whose only frequency is the greatest `int`
has maximum `maxInt`, and `createArticles` panics instead of returning
`maxInt + 1` articles. -/
theorem createArticles_length_counterexample :
    (∀ e ∈ [("a", maxInt)], InInt e.2 ∧ 0 ≤ e.2 ∧ e.2 ≤ maxInt) ∧
    ¬ ∃ arts, createArticles sampleRuntime [("a", maxInt)] [("a", maxInt)] = .ok arts ∧
      (arts.length : Int) = maxInt + 1 := by
  refine ⟨by decide, ?_⟩
  rintro ⟨arts, h, -⟩
  have : createArticles sampleRuntime [("a", maxInt)] [("a", maxInt)] = .error .sliceBounds := rfl
  rw [this] at h
  cases h

/-- C2, amended: when the maximum frequency `M` of a catalog of non-negative
frequencies is below the greatest `int`, `createArticles` returns exactly
`M + 1` articles. -/
theorem createArticles_length (rt : Runtime) (order1 order2 : List (String × Int))
    (hperm : order1.Perm order2) (hnn : ∀ e ∈ order2, 0 ≤ e.2)
    (M : Int) (hub : ∀ e ∈ order2, e.2 ≤ M)
    (hatt : (order2 = [] ∧ M = 0) ∨ ∃ e ∈ order2, e.2 = M) (hM : M < maxInt) :
    ∃ arts, createArticles rt order1 order2 = .ok arts ∧ (arts.length : Int) = M + 1 := by
  have hM0 : 0 ≤ M := by
    rcases hatt with ⟨-, h⟩ | ⟨e, he, h⟩
    · omega
    · rw [← h]; exact hnn e he
  have hmax : maxOf order1 = M := by
    apply maxOf_eq _ _ (fun e he => hub e (hperm.mem_iff.1 he)) hM0
    rcases hatt with ⟨-, h⟩ | ⟨e, he, h⟩
    · exact Or.inl h
    · exact Or.inr ⟨e, hperm.mem_iff.2 he, h⟩
  obtain ⟨arts, harts⟩ := createArticles_total rt order1 order2 hperm hnn
    (fun e he => lt_of_le_of_lt (hub e he) hM)
  refine ⟨arts, harts, ?_⟩
  rw [(createArticles_ok rt _ _ _ harts).1, hmax, wrapInt_succ_of_lt hM0 hM]
  omega

set_option maxRecDepth 100000 in
/-- C2, witness: the catalog `a: 1, b: 0`, of maximum 1, gives 2 articles. -/
theorem createArticles_length_witness :
    ∃ arts, createArticles sampleRuntime [("a", 1), ("b", 0)] [("b", 0), ("a", 1)] = .ok arts ∧
      (arts.length : Int) = 1 + 1 :=
  createArticles_length sampleRuntime [("a", 1), ("b", 0)] [("b", 0), ("a", 1)]
    (List.Perm.swap _ _ _) (by decide) 1 (by decide) (Or.inr ⟨("a", 1), by decide, rfl⟩) (by decide)

/-- C3: in the returned list, the tags of article `i` are the names of the
catalog entries of frequency at least `i`, in the order in which the tagging
loop visited the catalog, each once. -/
theorem createArticles_tags (rt : Runtime) (order1 order2 : List (String × Int))
    (hkeys : (order2.map Prod.fst).Nodup)
    (hint : ∀ e ∈ order2, InInt e.2) (hnn : ∀ e ∈ order2, 0 ≤ e.2)
    (arts : List Article) (hret : createArticles rt order1 order2 = .ok arts)
    (i : Nat) (a : Article) (hia : arts[i]? = some a) :
    a.Tags = (order2.filter (fun e => decide ((i : Int) ≤ e.2))).map Prod.fst ∧
    a.Tags.Nodup := by
  have h := tags_of_ok rt _ _ hint hnn arts hret i a hia
  refine ⟨h, ?_⟩
  rw [h]
  exact (List.filter_sublist _).map Prod.fst |>.nodup hkeys

set_option maxRecDepth 100000 in
/-- C3, witness: for the catalog `a: 1, b: 0` visited as `a`, `b`, article 1
has the tags `["a"]` only. -/
theorem createArticles_tags_witness :
    createArticles sampleRuntime [("b", 0), ("a", 1)] [("a", 1), ("b", 0)] =
      .ok [⟨"learning-0.md", ["a", "b"], "2024-01-01T00:00:00Z", body⟩,
           ⟨"learning-1.md", ["a"], "2024-01-01T00:00:00Z", body⟩] ∧
    (["a"] = ([("a", (1 : Int)), ("b", 0)].filter
        (fun e => decide (((1 : Nat) : Int) ≤ e.2))).map Prod.fst ∧ ["a"].Nodup) :=
  ⟨rfl, createArticles_tags sampleRuntime [("b", 0), ("a", 1)] [("a", 1), ("b", 0)]
    (by decide) (by decide) (by decide) _ rfl 1
    ⟨"learning-1.md", ["a"], "2024-01-01T00:00:00Z", body⟩ rfl⟩

/-- C4: in the returned list there is an article at index 0, and it carries
every tag name of the catalog. -/
theorem createArticles_first_has_all (rt : Runtime) (order1 order2 : List (String × Int))
    (hperm : order1.Perm order2)
    (hint : ∀ e ∈ order2, InInt e.2) (hnn : ∀ e ∈ order2, 0 ≤ e.2)
    (arts : List Article) (hret : createArticles rt order1 order2 = .ok arts) :
    ∃ a, arts[0]? = some a ∧ ∀ e ∈ order2, e.1 ∈ a.Tags := by
  have hlen : 0 < arts.length := by
    cases order2 with
    | nil =>
      have : order1 = [] := List.Perm.eq_nil hperm
      subst this
      injection hret with hret
      rw [← hret]
      simp [makeArticles, maxOf]
      decide
    | cons e rest =>
      have hb := (createArticles_ok rt _ _ _ hret).2.1 e (by simp)
      have h1 := lt_maxInt_of_ok rt _ _ hint hnn arts hret e (by simp)
      have h0 := hnn e (by simp)
      rw [wrapInt_succ_of_lt h0 h1] at hb
      omega
  refine ⟨arts[0], List.getElem?_eq_getElem hlen, ?_⟩
  intro e he
  rw [tags_of_ok rt _ _ hint hnn arts hret 0 _ (List.getElem?_eq_getElem hlen)]
  exact List.mem_map.2 ⟨e, List.mem_filter.2 ⟨he, by simpa using hnn e he⟩, rfl⟩

set_option maxRecDepth 100000 in
/-- C4, witness: the catalog `a: 1, b: 0`. -/
theorem createArticles_first_has_all_witness :
    createArticles sampleRuntime [("a", 1), ("b", 0)] [("b", 0), ("a", 1)] = .ok scenarioArticles ∧
    ∃ a, scenarioArticles[0]? = some a ∧ ∀ e ∈ [("b", (0 : Int)), ("a", 1)], e.1 ∈ a.Tags :=
  ⟨rfl, createArticles_first_has_all sampleRuntime [("a", 1), ("b", 0)] [("b", 0), ("a", 1)]
    (List.Perm.swap _ _ _) (by decide) (by decide) scenarioArticles rfl⟩

set_option maxRecDepth 100000 in
/-- C5: on the empty catalog `createArticles` returns one article, named
`learning-0.md`, without tags. -/
theorem createArticles_empty (rt : Runtime) :
    createArticles rt [] [] =
      .ok [⟨"learning-0.md", [], rt.stamp 0 (-10), body⟩] := by
  rfl

/-- C6, as stated, fails: on the catalog whose only frequency is the greatest
`int`, a catalog of non-negative frequencies, the bound `n+1` wraps around to
a negative number and the slice expression panics. -/
theorem createArticles_cannot_fail_counterexample :
    (∀ e ∈ [("a", maxInt)], InInt e.2 ∧ 0 ≤ e.2) ∧
    wrapInt (maxInt + 1) < 0 ∧
    createArticles sampleRuntime [("a", maxInt)] [("a", maxInt)] = .error .sliceBounds :=
  ⟨by decide, by decide, rfl⟩

/-- C6, amended: on a catalog whose frequencies are non-negative and below the
greatest `int`, `createArticles` returns, and every slice bound `n+1` of the
tagging loop lies between 0 and the length of the article list, each
frequency being at most the computed maximum. -/
theorem createArticles_cannot_fail (rt : Runtime) (order1 order2 : List (String × Int))
    (hperm : order1.Perm order2) (hnn : ∀ e ∈ order2, 0 ≤ e.2)
    (hlt : ∀ e ∈ order2, e.2 < maxInt) :
    (∃ arts, createArticles rt order1 order2 = .ok arts) ∧
    ∀ e ∈ order2, e.2 ≤ maxOf order1 ∧ 0 ≤ wrapInt (e.2 + 1) ∧
      wrapInt (e.2 + 1) ≤ ((makeArticles rt (maxOf order1)).length : Int) := by
  obtain ⟨arts, harts⟩ := createArticles_total rt order1 order2 hperm hnn hlt
  refine ⟨⟨arts, harts⟩, ?_⟩
  intro e he
  obtain ⟨hlen, hb, -⟩ := createArticles_ok rt _ _ _ harts
  have := hb e he
  rw [length_makeArticles, ← hlen]
  refine ⟨foldl_max_ge_mem order1 0 e (hperm.mem_iff.2 he), this.1, ?_⟩
  omega

/-- C6, witness: the catalog `a: 1, b: 0`. -/
theorem createArticles_cannot_fail_witness :
    (∃ arts, createArticles sampleRuntime [("a", 1), ("b", 0)] [("b", 0), ("a", 1)] = .ok arts) ∧
    ∀ e ∈ [("b", (0 : Int)), ("a", 1)], e.2 ≤ maxOf [("a", 1), ("b", 0)] ∧
      0 ≤ wrapInt (e.2 + 1) ∧
      wrapInt (e.2 + 1) ≤
        ((makeArticles sampleRuntime (maxOf [("a", 1), ("b", 0)])).length : Int) :=
  createArticles_cannot_fail sampleRuntime [("a", 1), ("b", 0)] [("b", 0), ("a", 1)]
    (List.Perm.swap _ _ _) (by decide) (by decide)

/-- C7: in the returned list, the name of article `i` is `learning-`, the
decimal digits of `i`, and `.md`. -/
theorem createArticles_names (rt : Runtime) (order1 order2 : List (String × Int))
    (arts : List Article) (hret : createArticles rt order1 order2 = .ok arts)
    (i : Nat) (a : Article) (hia : arts[i]? = some a) :
    a.Name = "learning-" ++ Nat.repr i ++ ".md" := by
  rw [((createArticles_ok rt _ _ _ hret).2.2 i a hia).1, newArticle_Name]

set_option maxRecDepth 100000 in
/-- C7, witness: article 1 of the catalog `a: 1, b: 0` is `learning-1.md`. -/
theorem createArticles_names_witness :
    createArticles sampleRuntime [("a", 1), ("b", 0)] [("b", 0), ("a", 1)] = .ok scenarioArticles ∧
    scenarioArticles[1]? = some ⟨"learning-1.md", ["a"], "2024-01-01T00:00:00Z", body⟩ ∧
    "learning-1.md" = "learning-" ++ Nat.repr 1 ++ ".md" :=
  ⟨rfl, rfl, createArticles_names sampleRuntime [("a", 1), ("b", 0)] [("b", 0), ("a", 1)]
    scenarioArticles rfl 1 ⟨"learning-1.md", ["a"], "2024-01-01T00:00:00Z", body⟩ rfl⟩

/-! ## The tag renderer and the front matter -/

/-- C8: for the article at index `i` of the list `createArticles` returns, the
two splits made by `writeArticles` give two parts each, so that `t[0]` and
`t[1]` are in range, the title is `learning`, a space and the decimal digits of
`i`, and the composed text carries that title and, after `date: `, the `Date`
of the article as it is. -/
theorem writeArticles_title_of_created (rt : Runtime) (order1 order2 : List (String × Int))
    (arts : List Article) (hret : createArticles rt order1 order2 = .ok arts)
    (i : Nat) (a : Article) (hia : arts[i]? = some a) :
    Split a.Name '.' = ["learning-" ++ Nat.repr i, "md"] ∧
    Split ("learning-" ++ Nat.repr i) '-' = ["learning", Nat.repr i] ∧
    articleTitle rt a = .ok ("learning " ++ Nat.repr i) ∧
    ∃ tok, stringifyTags rt a.Tags = [tok] ∧
      articleText rt a = .ok ("---\n" ++ "title: " ++ ("\"learning " ++ Nat.repr i ++ "\"") ++ "\n" ++
        "date: " ++ a.Date ++ "\n" ++ "tags: [" ++ tok ++ "]" ++ "\n" ++ "---\n" ++ a.Content) := by
  have hname := ((createArticles_ok rt _ _ _ hret).2.2 i a hia).1
  rw [newArticle_Name] at hname
  have htitle := articleTitle_name rt a i hname
  refine ⟨by rw [hname, Split_name], Split_stem i, htitle, ?_⟩
  obtain ⟨tok, htok⟩ := stringifyTags_singleton rt a.Tags
  refine ⟨tok, htok, ?_⟩
  unfold articleText
  rw [htitle]
  simp only [htok]
  rw [Sprintf_text, Quote_title]

set_option maxRecDepth 100000 in
/-- C8, witness: article 1 of the catalog `a: 1, b: 0`. -/
theorem writeArticles_title_of_created_witness :
    createArticles sampleRuntime [("a", 1), ("b", 0)] [("b", 0), ("a", 1)] = .ok scenarioArticles ∧
    scenarioArticles[1]? = some ⟨"learning-1.md", ["a"], "2024-01-01T00:00:00Z", body⟩ ∧
    (Split "learning-1.md" '.' = ["learning-" ++ Nat.repr 1, "md"] ∧
     Split ("learning-" ++ Nat.repr 1) '-' = ["learning", Nat.repr 1] ∧
     articleTitle sampleRuntime ⟨"learning-1.md", ["a"], "2024-01-01T00:00:00Z", body⟩ =
       .ok ("learning " ++ Nat.repr 1) ∧
     ∃ tok, stringifyTags sampleRuntime ["a"] = [tok] ∧
       articleText sampleRuntime ⟨"learning-1.md", ["a"], "2024-01-01T00:00:00Z", body⟩ =
         .ok ("---\n" ++ "title: " ++ ("\"learning " ++ Nat.repr 1 ++ "\"") ++ "\n" ++
           "date: " ++ "2024-01-01T00:00:00Z" ++ "\n" ++ "tags: [" ++ tok ++ "]" ++ "\n" ++
           "---\n" ++ body)) :=
  ⟨rfl, rfl, writeArticles_title_of_created sampleRuntime [("a", 1), ("b", 0)] [("b", 0), ("a", 1)]
    scenarioArticles rfl 1 ⟨"learning-1.md", ["a"], "2024-01-01T00:00:00Z", body⟩ rfl⟩

/-- C9: for an article with a well-formed name, `writeArticles` derives a title
and composes exactly this text: the line `---`, the line `title: ` with the
quoted title, the line `date: ` with the `Date`, the line `tags: [` with the
rendered tag token and `]`, the line `---`, and the `Content`. -/
theorem writeArticles_text_layout (rt : Runtime) (a : Article)
    (hname : WellFormedName a.Name) :
    ∃ title tok, articleTitle rt a = .ok title ∧ stringifyTags rt a.Tags = [tok] ∧
      articleText rt a = .ok ("---\n" ++ "title: " ++ Quote rt title ++ "\n" ++
        "date: " ++ a.Date ++ "\n" ++ "tags: [" ++ tok ++ "]" ++ "\n" ++ "---\n" ++ a.Content) := by
  obtain ⟨title, htitle⟩ := (articleTitle_ok_iff rt a).2 hname
  obtain ⟨tok, htok⟩ := stringifyTags_singleton rt a.Tags
  refine ⟨title, tok, htitle, htok, ?_⟩
  unfold articleText
  rw [htitle]
  simp only [htok]
  rw [Sprintf_text]

/-- C9, witness: an article named `notes-7.md` with a tag that needs an escape. -/
theorem writeArticles_text_layout_witness :
    WellFormedName "notes-7.md" ∧
    articleText sampleRuntime ⟨"notes-7.md", ["x\"y"], "2024-01-01T00:00:00Z", "Body\n"⟩ =
      .ok "---\ntitle: \"notes 7\"\ndate: 2024-01-01T00:00:00Z\ntags: [\"x\\\"y\"]\n---\nBody\n" ∧
    ∃ title tok,
      articleTitle sampleRuntime ⟨"notes-7.md", ["x\"y"], "2024-01-01T00:00:00Z", "Body\n"⟩ =
        .ok title ∧
      stringifyTags sampleRuntime ["x\"y"] = [tok] ∧
      articleText sampleRuntime ⟨"notes-7.md", ["x\"y"], "2024-01-01T00:00:00Z", "Body\n"⟩ =
        .ok ("---\n" ++ "title: " ++ Quote sampleRuntime title ++ "\n" ++
          "date: " ++ "2024-01-01T00:00:00Z" ++ "\n" ++ "tags: [" ++ tok ++ "]" ++ "\n" ++
          "---\n" ++ "Body\n") :=
  ⟨by decide, rfl, writeArticles_text_layout sampleRuntime
    ⟨"notes-7.md", ["x\"y"], "2024-01-01T00:00:00Z", "Body\n"⟩ (by decide)⟩

/-- C10: on a non-empty list, `stringifyTags` returns one element: the
double-quoted literals of the tags, in order, with one comma between
neighbours; it begins and ends with a double quote, as every token ends with
one. -/
theorem stringifyTags_joined (rt : Runtime) (ts : List String) (hne : ts ≠ []) :
    stringifyTags rt ts = [",".intercalate (ts.map (QuoteToASCII rt))] ∧
    (",".intercalate (ts.map (QuoteToASCII rt))).data.head? = some dquote ∧
    (",".intercalate (ts.map (QuoteToASCII rt))).data.getLast? = some dquote ∧
    ∀ t ∈ ts, (QuoteToASCII rt t).data.getLast? = some dquote := by
  refine ⟨stringifyTags_eq rt ts hne, ?_, ?_, fun t _ => getLast?_QuoteToASCII rt t⟩
  · cases ts with
    | nil => exact absurd rfl hne
    | cons t ts =>
      simp only [List.map_cons, String.intercalate, data_intercalate_go, List.head?_append,
        head?_QuoteToASCII]
      rfl
  · cases ts with
    | nil => exact absurd rfl hne
    | cons t ts =>
      simp only [List.map_cons, String.intercalate, data_intercalate_go]
      apply getLast?_flatten_sep
      · exact getLast?_QuoteToASCII rt t
      · intro q hq
        obtain ⟨t2, -, rfl⟩ := List.mem_map.1 hq
        exact getLast?_QuoteToASCII rt t2

/-- C10, witness: the tags `a`, `b` and the tag made of one comma. -/
theorem stringifyTags_joined_witness :
    stringifyTags sampleRuntime ["a", "b", ","] = ["\"a\",\"b\",\",\""] ∧
    (stringifyTags sampleRuntime ["a", "b", ","] =
        [",".intercalate (["a", "b", ","].map (QuoteToASCII sampleRuntime))] ∧
      (",".intercalate (["a", "b", ","].map (QuoteToASCII sampleRuntime))).data.head? =
        some dquote ∧
      (",".intercalate (["a", "b", ","].map (QuoteToASCII sampleRuntime))).data.getLast? =
        some dquote ∧
      ∀ t ∈ ["a", "b", ","], (QuoteToASCII sampleRuntime t).data.getLast? = some dquote) :=
  ⟨by decide, stringifyTags_joined sampleRuntime ["a", "b", ","] (by decide)⟩

/-! ## The generator: visiting orders, negative frequencies, nesting -/

/-- C16, as stated, fails: for the catalog `a: 2^63-1, b: 0`, of non-negative
frequencies, `createArticles` returns no list in either visiting order. -/
theorem createArticles_order_counterexample :
    (∀ e ∈ [("a", maxInt), ("b", 0)], InInt e.2 ∧ 0 ≤ e.2) ∧
    createArticles sampleRuntime [("a", maxInt), ("b", 0)] [("a", maxInt), ("b", 0)] =
      .error .sliceBounds ∧
    createArticles sampleRuntime [("b", 0), ("a", maxInt)] [("b", 0), ("a", maxInt)] =
      .error .sliceBounds :=
  ⟨by decide, rfl, rfl⟩

/-- C16, amended: for a catalog of non-negative frequencies below the greatest
`int`, two calls of `createArticles` that visit it in any orders return lists
of the same length, with the same name at every index, and with tag lists that
are permutations of one another at every index. -/
theorem createArticles_order_independent (rtA rtB : Runtime)
    (a1 a2 b1 b2 : List (String × Int))
    (hA : a1.Perm a2) (hB : b1.Perm b2) (hAB : a2.Perm b2)
    (hnn : ∀ e ∈ a2, 0 ≤ e.2) (hlt : ∀ e ∈ a2, e.2 < maxInt) :
    ∃ artsA artsB, createArticles rtA a1 a2 = .ok artsA ∧
      createArticles rtB b1 b2 = .ok artsB ∧ artsA.length = artsB.length ∧
      ∀ (i : Nat) (a b : Article), artsA[i]? = some a → artsB[i]? = some b →
        a.Name = b.Name ∧ a.Tags.Perm b.Tags := by
  have hnnB : ∀ e ∈ b2, 0 ≤ e.2 := fun e he => hnn e (hAB.mem_iff.2 he)
  have hltB : ∀ e ∈ b2, e.2 < maxInt := fun e he => hlt e (hAB.mem_iff.2 he)
  have hintA : ∀ e ∈ a2, InInt e.2 := fun e he => by
    have h0 := hnn e he
    have h1 := hlt e he
    unfold InInt minInt
    unfold maxInt at h1 ⊢
    omega
  have hintB : ∀ e ∈ b2, InInt e.2 := fun e he => hintA e (hAB.mem_iff.2 he)
  obtain ⟨artsA, hretA⟩ := createArticles_total rtA a1 a2 hA hnn hlt
  obtain ⟨artsB, hretB⟩ := createArticles_total rtB b1 b2 hB hnnB hltB
  refine ⟨artsA, artsB, hretA, hretB, ?_, ?_⟩
  · rw [(createArticles_ok rtA _ _ _ hretA).1, (createArticles_ok rtB _ _ _ hretB).1,
      maxOf_perm ((hA.trans hAB).trans hB.symm)]
  · intro i a b hia hib
    refine ⟨?_, ?_⟩
    · rw [((createArticles_ok rtA _ _ _ hretA).2.2 i a hia).1,
        ((createArticles_ok rtB _ _ _ hretB).2.2 i b hib).1, newArticle_Name, newArticle_Name]
    · rw [tags_of_ok rtA _ _ hintA hnn artsA hretA i a hia,
        tags_of_ok rtB _ _ hintB hnnB artsB hretB i b hib]
      exact (hAB.filter _).map _

set_option maxRecDepth 100000 in
/-- C16, witness: the catalog `a: 1, b: 0` visited as `b`, `a` and as `a`, `b`. -/
theorem createArticles_order_independent_witness :
    createArticles sampleRuntime [("a", 1), ("b", 0)] [("b", 0), ("a", 1)] = .ok scenarioArticles ∧
    ∃ artsA artsB,
      createArticles sampleRuntime [("a", 1), ("b", 0)] [("b", 0), ("a", 1)] = .ok artsA ∧
      createArticles sampleRuntime [("b", 0), ("a", 1)] [("a", 1), ("b", 0)] = .ok artsB ∧
      artsA.length = artsB.length ∧
      ∀ (i : Nat) (a b : Article), artsA[i]? = some a → artsB[i]? = some b →
        a.Name = b.Name ∧ a.Tags.Perm b.Tags :=
  ⟨rfl, createArticles_order_independent sampleRuntime sampleRuntime
    [("a", 1), ("b", 0)] [("b", 0), ("a", 1)] [("b", 0), ("a", 1)] [("a", 1), ("b", 0)]
    (List.Perm.swap _ _ _) (List.Perm.swap _ _ _) (List.Perm.swap _ _ _)
    (by decide) (by decide)⟩

/-- C18: a catalog with a frequency below `-1` makes `createArticles` panic in
the slice expression, the bound `n+1` of that entry being negative; a catalog
whose frequencies are at least `-1` is accepted, and a tag of frequency `-1`
is attached to no article. -/
theorem createArticles_negative_frequency (rt : Runtime) (order1 order2 : List (String × Int))
    (hint : ∀ e ∈ order2, InInt e.2) :
    ((∃ e ∈ order2, e.2 < -1) →
      createArticles rt order1 order2 = .error .sliceBounds ∧
      ∀ e ∈ order2, e.2 < -1 → wrapInt (e.2 + 1) < 0) ∧
    (order1.Perm order2 → (order2.map Prod.fst).Nodup →
      (∀ e ∈ order2, -1 ≤ e.2 ∧ e.2 < maxInt) →
      ∃ arts, createArticles rt order1 order2 = .ok arts ∧
        ∀ t, (t, (-1 : Int)) ∈ order2 → ∀ a ∈ arts, t ∉ a.Tags) := by
  have hneg : ∀ e ∈ order2, e.2 < -1 → wrapInt (e.2 + 1) < 0 := by
    intro e he hlt
    have := hint e he
    unfold InInt minInt maxInt at this
    unfold wrapInt
    omega
  refine ⟨?_, ?_⟩
  · rintro ⟨e, he, hlt⟩
    refine ⟨?_, hneg⟩
    apply createArticles_error_of_not_ok
    rintro ⟨arts, harts⟩
    have := ((createArticles_ok rt _ _ _ harts).2.1 e he).1
    have := hneg e he hlt
    omega
  · intro hperm hkeys hb
    obtain ⟨arts, harts⟩ := createArticles_total_of_ge rt order1 order2 hperm hb
    refine ⟨arts, harts, ?_⟩
    intro t ht a ha hmem
    obtain ⟨i, hia⟩ := List.getElem?_of_mem ha
    rw [((createArticles_ok rt _ _ _ harts).2.2 i a hia).2.2.2] at hmem
    obtain ⟨e, he, het⟩ := List.mem_map.1 hmem
    obtain ⟨he2, hie⟩ := List.mem_filter.1 he
    have : e = (t, -1) := List.inj_on_of_nodup_map hkeys he2 ht het
    subst this
    have hw : wrapInt ((-1 : Int) + 1) = 0 := by decide
    simp only [hw, decide_eq_true_eq] at hie
    omega

/-- C18, witness: the catalog `a: -2` panics; the catalog `a: -1` gives a list
in which no article carries `a`. -/
theorem createArticles_negative_frequency_witness :
    (createArticles sampleRuntime [("a", -2)] [("a", -2)] = .error .sliceBounds ∧
      ∀ e ∈ [("a", (-2 : Int))], e.2 < -1 → wrapInt (e.2 + 1) < 0) ∧
    ∃ arts, createArticles sampleRuntime [("a", -1)] [("a", -1)] = .ok arts ∧
      ∀ t, (t, (-1 : Int)) ∈ [("a", (-1 : Int))] → ∀ a ∈ arts, t ∉ a.Tags :=
  ⟨(createArticles_negative_frequency sampleRuntime [("a", -2)] [("a", -2)] (by decide)).1
      ⟨("a", -2), by decide, by decide⟩,
    (createArticles_negative_frequency sampleRuntime [("a", -1)] [("a", -1)] (by decide)).2
      (List.Perm.refl _) (by decide) (by decide)⟩

/-- C19: when the catalog has a maximum frequency `M` (it is then not empty)
and no negative frequency, every article of the returned list carries a tag,
and the last article, at index `M`, carries the tags of frequency `M` and no
other. -/
theorem createArticles_every_article_tagged (rt : Runtime)
    (order1 order2 : List (String × Int)) (hperm : order1.Perm order2)
    (hint : ∀ e ∈ order2, InInt e.2) (hnn : ∀ e ∈ order2, 0 ≤ e.2)
    (M : Int) (hub : ∀ e ∈ order2, e.2 ≤ M) (hatt : ∃ e ∈ order2, e.2 = M)
    (arts : List Article) (hret : createArticles rt order1 order2 = .ok arts) :
    (∀ a ∈ arts, a.Tags ≠ []) ∧
    arts.length = M.toNat + 1 ∧
    ∃ last, arts[M.toNat]? = some last ∧
      last.Tags = (order2.filter (fun e => decide (e.2 = M))).map Prod.fst := by
  obtain ⟨eM, heM, hM⟩ := hatt
  have hM0 : 0 ≤ M := by rw [← hM]; exact hnn eM heM
  have hMlt : M < maxInt := by
    rw [← hM]; exact lt_maxInt_of_ok rt _ _ hint hnn arts hret eM heM
  have hmax : maxOf order1 = M :=
    maxOf_eq _ _ (fun e he => hub e (hperm.mem_iff.1 he)) hM0
      (Or.inr ⟨eM, hperm.mem_iff.2 heM, hM⟩)
  have hlen : arts.length = M.toNat + 1 := by
    rw [(createArticles_ok rt _ _ _ hret).1, hmax, wrapInt_succ_of_lt hM0 hMlt]
    omega
  refine ⟨?_, hlen, ?_⟩
  · intro a ha hnil
    obtain ⟨i, hia⟩ := List.getElem?_of_mem ha
    have hi : i < arts.length := by
      by_contra hc
      rw [List.getElem?_eq_none (by omega)] at hia
      cases hia
    have htags := tags_of_ok rt _ _ hint hnn arts hret i a hia
    have : eM.1 ∈ a.Tags := by
      rw [htags]
      exact List.mem_map.2 ⟨eM, List.mem_filter.2 ⟨heM, by simp only [decide_eq_true_eq]; omega⟩, rfl⟩
    rw [hnil] at this
    cases this
  · have hi : M.toNat < arts.length := by omega
    refine ⟨arts[M.toNat], List.getElem?_eq_getElem hi, ?_⟩
    rw [tags_of_ok rt _ _ hint hnn arts hret _ _ (List.getElem?_eq_getElem hi)]
    congr 1
    apply List.filter_congr
    intro e he
    have := hub e he
    simp only [decide_eq_decide]
    omega

set_option maxRecDepth 100000 in
/-- C19, witness: the catalog `a: 1, b: 0`, of maximum 1. -/
theorem createArticles_every_article_tagged_witness :
    createArticles sampleRuntime [("a", 1), ("b", 0)] [("b", 0), ("a", 1)] = .ok scenarioArticles ∧
    ((∀ a ∈ scenarioArticles, a.Tags ≠ []) ∧
     scenarioArticles.length = (1 : Int).toNat + 1 ∧
     ∃ last, scenarioArticles[(1 : Int).toNat]? = some last ∧
       last.Tags =
         ([("b", (0 : Int)), ("a", 1)].filter (fun e => decide (e.2 = 1))).map Prod.fst) :=
  ⟨rfl, createArticles_every_article_tagged sampleRuntime [("a", 1), ("b", 0)]
    [("b", 0), ("a", 1)] (List.Perm.swap _ _ _) (by decide) (by decide) 1
    (by decide) ⟨("a", 1), by decide, rfl⟩ scenarioArticles rfl⟩

/-- C20: in the returned list no article carries a tag twice, every tag of an
article is a key of the catalog, and for `i ≤ j` the tags of article `j` are a
sublist of the tags of article `i`, so that the number of tags does not grow
with the index. -/
theorem createArticles_tags_nested (rt : Runtime) (order1 order2 : List (String × Int))
    (hkeys : (order2.map Prod.fst).Nodup)
    (hint : ∀ e ∈ order2, InInt e.2) (hnn : ∀ e ∈ order2, 0 ≤ e.2)
    (arts : List Article) (hret : createArticles rt order1 order2 = .ok arts) :
    (∀ a ∈ arts, a.Tags.Nodup ∧ ∀ t ∈ a.Tags, t ∈ order2.map Prod.fst) ∧
    ∀ (i j : Nat) (a b : Article), i ≤ j → arts[i]? = some a → arts[j]? = some b →
      b.Tags.Sublist a.Tags ∧ b.Tags.length ≤ a.Tags.length := by
  refine ⟨?_, ?_⟩
  · intro a ha
    obtain ⟨i, hia⟩ := List.getElem?_of_mem ha
    have h := tags_of_ok rt _ _ hint hnn arts hret i a hia
    rw [h]
    refine ⟨((List.filter_sublist _).map Prod.fst).nodup hkeys, ?_⟩
    intro t ht
    exact ((List.filter_sublist _).map Prod.fst).subset ht
  · intro i j a b hij hia hjb
    rw [tags_of_ok rt _ _ hint hnn arts hret i a hia,
      tags_of_ok rt _ _ hint hnn arts hret j b hjb]
    have hsub : (order2.filter (fun e => decide ((j : Int) ≤ e.2))).Sublist
        (order2.filter (fun e => decide ((i : Int) ≤ e.2))) := by
      apply List.monotone_filter_right
      intro e he
      simp only [decide_eq_true_eq] at he ⊢
      omega
    exact ⟨hsub.map _, (hsub.map _).length_le⟩

set_option maxRecDepth 100000 in
/-- C20, witness: the catalog `a: 1, b: 0`. -/
theorem createArticles_tags_nested_witness :
    createArticles sampleRuntime [("a", 1), ("b", 0)] [("b", 0), ("a", 1)] = .ok scenarioArticles ∧
    ((∀ a ∈ scenarioArticles,
        a.Tags.Nodup ∧ ∀ t ∈ a.Tags, t ∈ [("b", (0 : Int)), ("a", 1)].map Prod.fst) ∧
     ∀ (i j : Nat) (a b : Article), i ≤ j → scenarioArticles[i]? = some a →
       scenarioArticles[j]? = some b → b.Tags.Sublist a.Tags ∧ b.Tags.length ≤ a.Tags.length) :=
  ⟨rfl, createArticles_tags_nested sampleRuntime [("a", 1), ("b", 0)] [("b", 0), ("a", 1)]
    (by decide) (by decide) (by decide) scenarioArticles rfl⟩

/-! ## The writer: empty tag lists, the directory, file handles -/

/-- C11: for an article without tags `stringifyTags` returns one element, the
empty string, and the text composed for the article has the line `tags: []`
between the `date` line and the closing `---`. -/
theorem stringifyTags_empty (rt : Runtime) (a : Article) (htags : a.Tags = [])
    (hname : WellFormedName a.Name) :
    stringifyTags rt a.Tags = [""] ∧
    ∃ title, articleTitle rt a = .ok title ∧
      articleText rt a = .ok ("---\n" ++ "title: " ++ Quote rt title ++ "\n" ++
        "date: " ++ a.Date ++ "\n" ++ "tags: []" ++ "\n" ++ "---\n" ++ a.Content) := by
  have hs : stringifyTags rt a.Tags = [""] := by rw [htags]; rfl
  obtain ⟨title, htitle⟩ := (articleTitle_ok_iff rt a).2 hname
  refine ⟨hs, title, htitle, ?_⟩
  unfold articleText
  rw [htitle]
  simp only [hs]
  rw [Sprintf_text]
  congr 1
  apply String.ext
  simp

set_option maxRecDepth 100000 in
/-- C11, witness: the article of the empty catalog. -/
theorem stringifyTags_empty_witness :
    createArticles sampleRuntime [] [] =
      .ok [⟨"learning-0.md", [], "2024-01-01T00:00:00Z", body⟩] ∧
    (stringifyTags sampleRuntime [] = [""] ∧
     ∃ title, articleTitle sampleRuntime ⟨"learning-0.md", [], "2024-01-01T00:00:00Z", body⟩ =
        .ok title ∧
      articleText sampleRuntime ⟨"learning-0.md", [], "2024-01-01T00:00:00Z", body⟩ =
        .ok ("---\n" ++ "title: " ++ Quote sampleRuntime title ++ "\n" ++
          "date: " ++ "2024-01-01T00:00:00Z" ++ "\n" ++ "tags: []" ++ "\n" ++ "---\n" ++ body)) :=
  ⟨rfl, stringifyTags_empty sampleRuntime
    ⟨"learning-0.md", [], "2024-01-01T00:00:00Z", body⟩ rfl (by decide)⟩

/-- C15: when `os.RemoveAll` or `os.Mkdir` reports an error, `writeArticles`
ends in `log.Fatal` right after that call: the run has made no `os.Create` and
no `WriteString`. -/
theorem writeArticles_reset_failure (rt : Runtime) (fl : Faults) (prior : Dir)
    (arts : List Article) (h : fl.removeAll = true ∨ fl.mkdir = true) :
    (writeArticles rt fl prior arts).exit = .fatal ∧
    ((writeArticles rt fl prior arts).trace = [.removeAll false] ∨
      (writeArticles rt fl prior arts).trace = [.removeAll true, .mkdir false]) ∧
    ∀ e ∈ (writeArticles rt fl prior arts).trace, e.touchesArticle = false := by
  by_cases hr : fl.removeAll = true
  · have : writeArticles rt fl prior arts =
        ⟨.fatal, afterFailedRemoval prior, [.removeAll false]⟩ := by
      simp [writeArticles, cleanWorkingDir, hr]
    rw [this]
    refine ⟨rfl, Or.inl rfl, ?_⟩
    intro e he
    simp only [List.mem_singleton] at he
    subst he
    rfl
  · have hm : fl.mkdir = true := h.resolve_left hr
    have : writeArticles rt fl prior arts =
        ⟨.fatal, .absent, [.removeAll true, .mkdir false]⟩ := by
      simp [writeArticles, cleanWorkingDir, hr, hm]
    rw [this]
    refine ⟨rfl, Or.inr rfl, ?_⟩
    intro e he
    simp only [List.mem_cons, List.mem_singleton, List.not_mem_nil, or_false] at he
    rcases he with rfl | rfl <;> rfl

/-- C15, witness: `os.Mkdir` fails on the way to writing the two articles of
the catalog `a: 1, b: 0`. -/
theorem writeArticles_reset_failure_witness :
    (writeArticles sampleRuntime mkdirFails (.holds [("old.md", .whole "old")])
        scenarioArticles).exit = .fatal ∧
    ((writeArticles sampleRuntime mkdirFails (.holds [("old.md", .whole "old")])
        scenarioArticles).trace = [.removeAll false] ∨
      (writeArticles sampleRuntime mkdirFails (.holds [("old.md", .whole "old")])
        scenarioArticles).trace = [.removeAll true, .mkdir false]) ∧
    ∀ e ∈ (writeArticles sampleRuntime mkdirFails (.holds [("old.md", .whole "old")])
        scenarioArticles).trace, e.touchesArticle = false :=
  writeArticles_reset_failure sampleRuntime mkdirFails (.holds [("old.md", .whole "old")])
    scenarioArticles (Or.inr rfl)

set_option maxRecDepth 100000 in
/-- C13, the code at two articles: the file of the first article is closed
last, after the file of the second was created, written and closed; once the
second file is created two handles are open. -/
theorem writeArticles_handles_stay_open :
    (writeArticles sampleRuntime noFaults .absent scenarioArticles).trace =
      [.removeAll true, .mkdir true,
       .create 0 "learning-0.md" true, .write 0 true,
       .create 1 "learning-1.md" true, .write 1 true,
       .close 1 true, .close 0 true] ∧
    openHandles ((writeArticles sampleRuntime noFaults .absent scenarioArticles).trace.take 5) =
      [1, 0] := by
  refine ⟨by rfl, by rfl⟩

set_option maxRecDepth 100000 in
/-- C14, the code at a failing write: after the error of `WriteString` the run
ends in `log.Fatal` without any `Close`, the handle of the created file still
open. -/
theorem writeArticles_write_error_skips_close :
    (writeArticles sampleRuntime firstWriteFails .absent scenarioArticles).exit = .fatal ∧
    (writeArticles sampleRuntime firstWriteFails .absent scenarioArticles).trace =
      [.removeAll true, .mkdir true, .create 0 "learning-0.md" true, .write 0 false] ∧
    openHandles (writeArticles sampleRuntime firstWriteFails .absent scenarioArticles).trace =
      [0] := by
  refine ⟨by rfl, by rfl, by rfl⟩

/-- C12, as stated, fails on three article lists, in runs where no call into
the file system fails: a name without hyphen makes the run panic before any
file is created; two articles of the same name leave one file, with the text of
the second; a name that begins with a slash leaves a file under another name. -/
theorem writeArticles_leaves_exactly_counterexample :
    (NoFailure (writeArticles sampleRuntime noFaults .absent [⟨"readme", [], "D", "x"⟩]) ∧
      (writeArticles sampleRuntime noFaults .absent [⟨"readme", [], "D", "x"⟩]).exit =
        .panicked .indexRange ∧
      (writeArticles sampleRuntime noFaults .absent [⟨"readme", [], "D", "x"⟩]).dir =
        .holds []) ∧
    (NoFailure (writeArticles sampleRuntime noFaults .absent
        [⟨"n-0.md", [], "D", "x"⟩, ⟨"n-0.md", [], "D", "z"⟩]) ∧
      articleText sampleRuntime ⟨"n-0.md", [], "D", "x"⟩ =
        .ok "---\ntitle: \"n 0\"\ndate: D\ntags: []\n---\nx" ∧
      (writeArticles sampleRuntime noFaults .absent
        [⟨"n-0.md", [], "D", "x"⟩, ⟨"n-0.md", [], "D", "z"⟩]).dir =
        .holds [("n-0.md", .whole "---\ntitle: \"n 0\"\ndate: D\ntags: []\n---\nz")]) ∧
    (NoFailure (writeArticles sampleRuntime noFaults .absent [⟨"/n-0.md", [], "D", "x"⟩]) ∧
      (writeArticles sampleRuntime noFaults .absent [⟨"/n-0.md", [], "D", "x"⟩]).dir =
        .holds [("n-0.md", .whole "---\ntitle: \"/n 0\"\ndate: D\ntags: []\n---\nx")]) ∧
    ¬ HoldsExactly sampleRuntime [⟨"readme", [], "D", "x"⟩]
        (writeArticles sampleRuntime noFaults .absent [⟨"readme", [], "D", "x"⟩]).dir ∧
    ¬ HoldsExactly sampleRuntime [⟨"n-0.md", [], "D", "x"⟩, ⟨"n-0.md", [], "D", "z"⟩]
        (writeArticles sampleRuntime noFaults .absent
          [⟨"n-0.md", [], "D", "x"⟩, ⟨"n-0.md", [], "D", "z"⟩]).dir ∧
    ¬ HoldsExactly sampleRuntime [⟨"/n-0.md", [], "D", "x"⟩]
        (writeArticles sampleRuntime noFaults .absent [⟨"/n-0.md", [], "D", "x"⟩]).dir := by
  refine ⟨⟨by decide, rfl, rfl⟩, ⟨by decide, rfl, rfl⟩, ⟨by decide, rfl⟩, ?_, ?_, ?_⟩
  · rintro ⟨files, hdir, hfor⟩
    have h : (writeArticles sampleRuntime noFaults .absent [⟨"readme", [], "D", "x"⟩]).dir =
        .holds [] := rfl
    rw [h] at hdir
    injection hdir with hdir
    subst hdir
    cases hfor
  · rintro ⟨files, hdir, hfor⟩
    have h : (writeArticles sampleRuntime noFaults .absent
        [⟨"n-0.md", [], "D", "x"⟩, ⟨"n-0.md", [], "D", "z"⟩]).dir =
        .holds [("n-0.md", .whole "---\ntitle: \"n 0\"\ndate: D\ntags: []\n---\nz")] := rfl
    rw [h] at hdir
    injection hdir with hdir
    subst hdir
    cases hfor with
    | cons _ hrest => cases hrest
  · rintro ⟨files, hdir, hfor⟩
    have h : (writeArticles sampleRuntime noFaults .absent [⟨"/n-0.md", [], "D", "x"⟩]).dir =
        .holds [("n-0.md", .whole "---\ntitle: \"/n 0\"\ndate: D\ntags: []\n---\nx")] := rfl
    rw [h] at hdir
    injection hdir with hdir
    subst hdir
    cases hfor with
    | cons hfile _ =>
      have := hfile.1
      revert this
      decide

/-- C12, amended: for article lists with well-formed, pairwise distinct names
that are plain file names, a run of `writeArticles` in which no call into the
file system fails returns and leaves, whatever the directory was before, one
file for each article, holding its composed text, and no other entry; a second
such run on what the first one left leaves the files of the second run only. -/
theorem writeArticles_leaves_exactly (rt : Runtime) (fl : Faults) (prior : Dir)
    (arts : List Article) (hnames : PlainNames arts)
    (hok : NoFailure (writeArticles rt fl prior arts)) :
    (writeArticles rt fl prior arts).exit = .returned ∧
    HoldsExactly rt arts (writeArticles rt fl prior arts).dir ∧
    ∀ (rt2 : Runtime) (fl2 : Faults) (arts2 : List Article), PlainNames arts2 →
      NoFailure (writeArticles rt2 fl2 (writeArticles rt fl prior arts).dir arts2) →
      HoldsExactly rt2 arts2 (writeArticles rt2 fl2 (writeArticles rt fl prior arts).dir arts2).dir := by
  obtain ⟨hexit, hholds⟩ := writeArticles_clean rt fl prior arts hnames hok
  refine ⟨hexit, hholds, ?_⟩
  intro rt2 fl2 arts2 hnames2 hok2
  exact (writeArticles_clean rt2 fl2 _ arts2 hnames2 hok2).2

set_option maxRecDepth 100000 in
/-- C12, witness: the two articles of the catalog `a: 1, b: 0` written over a
directory that held another file. -/
theorem writeArticles_leaves_exactly_witness :
    PlainNames scenarioArticles ∧
    NoFailure (writeArticles sampleRuntime noFaults (.holds [("old.md", .whole "old")])
      scenarioArticles) ∧
    ((writeArticles sampleRuntime noFaults (.holds [("old.md", .whole "old")])
        scenarioArticles).exit = .returned ∧
     HoldsExactly sampleRuntime scenarioArticles
       (writeArticles sampleRuntime noFaults (.holds [("old.md", .whole "old")])
         scenarioArticles).dir ∧
     ∀ (rt2 : Runtime) (fl2 : Faults) (arts2 : List Article), PlainNames arts2 →
       NoFailure (writeArticles rt2 fl2
         (writeArticles sampleRuntime noFaults (.holds [("old.md", .whole "old")])
           scenarioArticles).dir arts2) →
       HoldsExactly rt2 arts2 (writeArticles rt2 fl2
         (writeArticles sampleRuntime noFaults (.holds [("old.md", .whole "old")])
           scenarioArticles).dir arts2).dir) :=
  ⟨by decide, by decide,
    writeArticles_leaves_exactly sampleRuntime noFaults (.holds [("old.md", .whole "old")])
      scenarioArticles (by decide) (by decide)⟩

/-- C17: the names of the articles `createArticles` returns are pairwise
distinct, equal names forcing equal indices, and each names a directory entry
as it is; hence `writeArticles`, when no call into the file system fails,
returns and leaves one file for each article, none overwritten by another, and
so does every run of it in which no such call has failed. -/
theorem createArticles_names_distinct (rt : Runtime) (order1 order2 : List (String × Int))
    (arts : List Article) (hret : createArticles rt order1 order2 = .ok arts) :
    (arts.map Article.Name).Nodup ∧
    (∀ (i j : Nat) (a b : Article), arts[i]? = some a → arts[j]? = some b →
      a.Name = b.Name → i = j) ∧
    (∀ a ∈ arts, entryName a.Name = some a.Name) ∧
    (∀ (prior : Dir), (writeArticles rt noFaults prior arts).exit = .returned ∧
      NoFailure (writeArticles rt noFaults prior arts) ∧
      HoldsExactly rt arts (writeArticles rt noFaults prior arts).dir) ∧
    ∀ (fl : Faults) (prior : Dir), NoFailure (writeArticles rt fl prior arts) →
      HoldsExactly rt arts (writeArticles rt fl prior arts).dir := by
  have hplain := plainNames_of_created rt order1 order2 arts hret
  refine ⟨hplain.2, ?_, fun a ha => (hplain.1 a ha).2,
    fun prior => writeArticles_noFaults rt prior arts hplain, ?_⟩
  · intro i j a b hia hjb hab
    rw [((createArticles_ok rt _ _ _ hret).2.2 i a hia).1,
      ((createArticles_ok rt _ _ _ hret).2.2 j b hjb).1, newArticle_Name, newArticle_Name] at hab
    exact name_injective hab
  · intro fl prior hok
    exact (writeArticles_clean rt fl prior arts hplain hok).2

set_option maxRecDepth 100000 in
/-- C17, witness: the two articles of the catalog `a: 1, b: 0`, written over a
directory that held another file: the run creates `learning-0.md` and
`learning-1.md` and leaves these two files. -/
theorem createArticles_names_distinct_witness :
    createArticles sampleRuntime [("a", 1), ("b", 0)] [("b", 0), ("a", 1)] = .ok scenarioArticles ∧
    (writeArticles sampleRuntime noFaults (.holds [("old.md", .whole "old")])
        scenarioArticles).trace =
      [.removeAll true, .mkdir true,
       .create 0 "learning-0.md" true, .write 0 true,
       .create 1 "learning-1.md" true, .write 1 true,
       .close 1 true, .close 0 true] ∧
    (∃ files, (writeArticles sampleRuntime noFaults (.holds [("old.md", .whole "old")])
        scenarioArticles).dir = .holds files ∧
      files.map Prod.fst = ["learning-0.md", "learning-1.md"]) ∧
    ((scenarioArticles.map Article.Name).Nodup ∧
     (∀ (i j : Nat) (a b : Article), scenarioArticles[i]? = some a →
       scenarioArticles[j]? = some b → a.Name = b.Name → i = j) ∧
     (∀ a ∈ scenarioArticles, entryName a.Name = some a.Name) ∧
     (∀ (prior : Dir),
       (writeArticles sampleRuntime noFaults prior scenarioArticles).exit = .returned ∧
       NoFailure (writeArticles sampleRuntime noFaults prior scenarioArticles) ∧
       HoldsExactly sampleRuntime scenarioArticles
         (writeArticles sampleRuntime noFaults prior scenarioArticles).dir) ∧
     ∀ (fl : Faults) (prior : Dir),
       NoFailure (writeArticles sampleRuntime fl prior scenarioArticles) →
       HoldsExactly sampleRuntime scenarioArticles
         (writeArticles sampleRuntime fl prior scenarioArticles).dir) :=
  ⟨rfl, rfl, ⟨_, rfl, rfl⟩,
    createArticles_names_distinct sampleRuntime [("a", 1), ("b", 0)] [("b", 0), ("a", 1)]
      scenarioArticles rfl⟩

end Main
